import Mathlib

/-! # Asset mirror pipeline of `main.go`

A shallow embedding of the pure pipeline of `main.go` (link extraction,
de-duplication, file-name derivation) and of `downloadFile` over an explicit
world (file system, request log) with the outcomes of the operating system and
of the network given by an environment record.

Go strings are modelled as lists of Unicode code points (`List Char`), that is as
valid UTF-8 text.  All separators the program looks at (`/`, `.`, `?`, `_`, the
double quote) are ASCII, so byte-wise and rune-wise scanning agree on such text.
-/

namespace KandelDocs

/-- A Go `string`. -/
abbrev GoString := List Char

/-! ## `strings` -/

/-- The simple lower-case mappings of the runes beyond ASCII (Unicode 14 and 15,
the data behind the table `unicode.CaseRanges` of Go's library).  An entry
`(lo, hi, stride, target)` says that the runes `lo`, `lo + stride`, ..., `hi`
map to `target`, `target + stride`, ... -/
def lowerCaseRanges : List (Nat × Nat × Nat × Nat) :=
  [(192, 214, 1, 224), (216, 222, 1, 248), (256, 302, 2, 257), (304, 304, 1, 105),
   (306, 310, 2, 307), (313, 327, 2, 314), (330, 374, 2, 331), (376, 376, 1, 255),
   (377, 381, 2, 378), (385, 385, 1, 595), (386, 388, 2, 387), (390, 390, 1, 596),
   (391, 391, 1, 392), (393, 394, 1, 598), (395, 395, 1, 396), (398, 398, 1, 477),
   (399, 399, 1, 601), (400, 400, 1, 603), (401, 401, 1, 402), (403, 403, 1, 608),
   (404, 404, 1, 611), (406, 406, 1, 617), (407, 407, 1, 616), (408, 408, 1, 409),
   (412, 412, 1, 623), (413, 413, 1, 626), (415, 415, 1, 629), (416, 420, 2, 417),
   (422, 422, 1, 640), (423, 423, 1, 424), (425, 425, 1, 643), (428, 428, 1, 429),
   (430, 430, 1, 648), (431, 431, 1, 432), (433, 434, 1, 650), (435, 437, 2, 436),
   (439, 439, 1, 658), (440, 440, 1, 441), (444, 444, 1, 445), (452, 452, 1, 454),
   (453, 453, 1, 454), (455, 455, 1, 457), (456, 456, 1, 457), (458, 458, 1, 460),
   (459, 475, 2, 460), (478, 494, 2, 479), (497, 497, 1, 499), (498, 500, 2, 499),
   (502, 502, 1, 405), (503, 503, 1, 447), (504, 542, 2, 505), (544, 544, 1, 414),
   (546, 562, 2, 547), (570, 570, 1, 11365), (571, 571, 1, 572), (573, 573, 1, 410),
   (574, 574, 1, 11366), (577, 577, 1, 578), (579, 579, 1, 384), (580, 580, 1, 649),
   (581, 581, 1, 652), (582, 590, 2, 583), (880, 882, 2, 881), (886, 886, 1, 887),
   (895, 895, 1, 1011), (902, 902, 1, 940), (904, 906, 1, 941), (908, 908, 1, 972),
   (910, 911, 1, 973), (913, 929, 1, 945), (931, 939, 1, 963), (975, 975, 1, 983),
   (984, 1006, 2, 985), (1012, 1012, 1, 952), (1015, 1015, 1, 1016), (1017, 1017, 1, 1010),
   (1018, 1018, 1, 1019), (1021, 1023, 1, 891), (1024, 1039, 1, 1104), (1040, 1071, 1, 1072),
   (1120, 1152, 2, 1121), (1162, 1214, 2, 1163), (1216, 1216, 1, 1231), (1217, 1229, 2, 1218),
   (1232, 1326, 2, 1233), (1329, 1366, 1, 1377), (4256, 4293, 1, 11520), (4295, 4295, 1, 11559),
   (4301, 4301, 1, 11565), (5024, 5103, 1, 43888), (5104, 5109, 1, 5112), (7312, 7354, 1, 4304),
   (7357, 7359, 1, 4349), (7680, 7828, 2, 7681), (7838, 7838, 1, 223), (7840, 7934, 2, 7841),
   (7944, 7951, 1, 7936), (7960, 7965, 1, 7952), (7976, 7983, 1, 7968), (7992, 7999, 1, 7984),
   (8008, 8013, 1, 8000), (8025, 8031, 2, 8017), (8040, 8047, 1, 8032), (8072, 8079, 1, 8064),
   (8088, 8095, 1, 8080), (8104, 8111, 1, 8096), (8120, 8121, 1, 8112), (8122, 8123, 1, 8048),
   (8124, 8124, 1, 8115), (8136, 8139, 1, 8050), (8140, 8140, 1, 8131), (8152, 8153, 1, 8144),
   (8154, 8155, 1, 8054), (8168, 8169, 1, 8160), (8170, 8171, 1, 8058), (8172, 8172, 1, 8165),
   (8184, 8185, 1, 8056), (8186, 8187, 1, 8060), (8188, 8188, 1, 8179), (8486, 8486, 1, 969),
   (8490, 8490, 1, 107), (8491, 8491, 1, 229), (8498, 8498, 1, 8526), (8544, 8559, 1, 8560),
   (8579, 8579, 1, 8580), (9398, 9423, 1, 9424), (11264, 11311, 1, 11312),
   (11360, 11360, 1, 11361), (11362, 11362, 1, 619), (11363, 11363, 1, 7549),
   (11364, 11364, 1, 637), (11367, 11371, 2, 11368), (11373, 11373, 1, 593),
   (11374, 11374, 1, 625), (11375, 11375, 1, 592), (11376, 11376, 1, 594),
   (11378, 11378, 1, 11379), (11381, 11381, 1, 11382), (11390, 11391, 1, 575),
   (11392, 11490, 2, 11393), (11499, 11501, 2, 11500), (11506, 11506, 1, 11507),
   (42560, 42604, 2, 42561), (42624, 42650, 2, 42625), (42786, 42798, 2, 42787),
   (42802, 42862, 2, 42803), (42873, 42875, 2, 42874), (42877, 42877, 1, 7545),
   (42878, 42886, 2, 42879), (42891, 42891, 1, 42892), (42893, 42893, 1, 613),
   (42896, 42898, 2, 42897), (42902, 42920, 2, 42903), (42922, 42922, 1, 614),
   (42923, 42923, 1, 604), (42924, 42924, 1, 609), (42925, 42925, 1, 620),
   (42926, 42926, 1, 618), (42928, 42928, 1, 670), (42929, 42929, 1, 647),
   (42930, 42930, 1, 669), (42931, 42931, 1, 43859), (42932, 42946, 2, 42933),
   (42948, 42948, 1, 42900), (42949, 42949, 1, 642), (42950, 42950, 1, 7566),
   (42951, 42953, 2, 42952), (42960, 42960, 1, 42961), (42966, 42968, 2, 42967),
   (42997, 42997, 1, 42998), (65313, 65338, 1, 65345), (66560, 66599, 1, 66600),
   (66736, 66771, 1, 66776), (66928, 66938, 1, 66967), (66940, 66954, 1, 66979),
   (66956, 66962, 1, 66995), (66964, 66965, 1, 67003), (68736, 68786, 1, 68800),
   (71840, 71871, 1, 71872), (93760, 93791, 1, 93792), (125184, 125217, 1, 125218)]

/-- Look a rune up in a table of lower-case mappings; a rune in no entry stays
as it is. -/
def lowerInRanges (c : Nat) : List (Nat × Nat × Nat × Nat) → Nat
  | [] => c
  | (lo, hi, stride, target) :: rest =>
    if lo ≤ c ∧ c ≤ hi ∧ (c - lo) % stride = 0 then target + (c - lo)
    else lowerInRanges c rest

/-- Model of `unicode.ToLower`: in ASCII `A`..`Z` go to `a`..`z` and nothing
else changes; beyond ASCII the case table decides. -/
def toLowerRune (c : Char) : Char :=
  if c.toNat < 128 then
    if 65 ≤ c.toNat ∧ c.toNat ≤ 90 then Char.ofNat (c.toNat + 32) else c
  else Char.ofNat (lowerInRanges c.toNat lowerCaseRanges)

/-- Model of `strings.ToLower`: every rune is mapped by `unicode.ToLower`. -/
def stringsToLower (s : GoString) : GoString := s.map toLowerRune

/-- Model of `strings.CutPrefix`. -/
def stringsCutPrefix (s pre : GoString) : GoString × Bool :=
  if pre.isPrefixOf s then (s.drop pre.length, true) else (s, false)

/-- Left-to-right replacement of the non-overlapping occurrences of a non-empty
`old`; `skip` counts the runes of an occurrence still to be passed over. -/
def replaceScan (old new : GoString) : Nat → GoString → GoString
  | _, [] => []
  | skip + 1, _ :: cs => replaceScan old new skip cs
  | 0, c :: cs =>
    if old.isPrefixOf (c :: cs) then new ++ replaceScan old new (old.length - 1) cs
    else c :: replaceScan old new 0 cs

/-- Model of `strings.ReplaceAll`.  An empty `old` matches at the start of the
string and after every rune. -/
def stringsReplaceAll (s old new : GoString) : GoString :=
  if old = [] then new ++ s.flatMap (fun c => c :: new) else replaceScan old new 0 s

/-- Text before the first occurrence of the non-empty separator `sep` (all of
the text when `sep` does not occur). -/
def beforeSep (sep : GoString) : GoString → GoString
  | [] => []
  | c :: cs => if sep.isPrefixOf (c :: cs) then [] else c :: beforeSep sep cs

/-- Text after the first occurrence of the non-empty separator `sep`, when
there is one. -/
def afterSep (sep : GoString) : GoString → Option GoString
  | [] => none
  | c :: cs => if sep.isPrefixOf (c :: cs) then some ((c :: cs).drop sep.length) else afterSep sep cs

/-- Model of `strings.SplitN(s, sep, 2)` for a non-empty `sep`: the text before
and after the first `sep`, or `s` alone. -/
def stringsSplitN2 (s sep : GoString) : List GoString :=
  match afterSep sep s with
  | some rest => [beforeSep sep s, rest]
  | none => [s]

/-! ## `path` and `path/filepath` (Unix separators) -/

/-- Backward loop of `filepath.Ext`: `rev` is the part of the path not yet
visited, last rune first, and `acc` is the part already passed. -/
def extLoop : GoString → GoString → GoString
  | [], _ => []
  | c :: rev, acc =>
    if c = '/' then [] else if c = '.' then '.' :: acc else extLoop rev (c :: acc)

/-- Model of `filepath.Ext`: the suffix that starts at the last dot of the last
slash-separated element, empty when that element has no dot. -/
def filepathExt (path : GoString) : GoString := extLoop path.reverse []

/-- Model of `path.Base`. -/
def pathBase (path : GoString) : GoString :=
  if path = [] then ['.'] else
    let stripped := (path.reverse.dropWhile (fun c => c == '/')).reverse
    let last := (stripped.reverse.takeWhile (fun c => c != '/')).reverse
    if last = [] then ['/'] else last

/-- Stack pass of the lexical `Clean`: drops empty and `.` elements and lets
`..` cancel the element before it (at the root `..` is dropped). -/
def cleanElems (rooted : Bool) : List GoString → List GoString → List GoString
  | stack, [] => stack.reverse
  | stack, e :: es =>
    if e = [] ∨ e = ['.'] then cleanElems rooted stack es
    else if e = ['.', '.'] then
      match stack with
      | top :: below =>
        if top = ['.', '.'] then cleanElems rooted (e :: stack) es
        else cleanElems rooted below es
      | [] => if rooted then cleanElems rooted [] es else cleanElems rooted [e] es
    else cleanElems rooted (e :: stack) es

/-- Model of `filepath.Clean`. -/
def filepathClean (path : GoString) : GoString :=
  let rooted := path.head? == some '/'
  let elems := cleanElems rooted [] (path.splitOn '/')
  let body := ['/'].intercalate elems
  let out := if rooted then '/' :: body else body
  if out = [] then ['.'] else out

/-- Model of `filepath.Join`: empty elements are ignored, the rest is joined
with `/` and cleaned; the result is empty when every element is. -/
def filepathJoin (elems : List GoString) : GoString :=
  let kept := elems.filter (fun e => e != [])
  if kept = [] then [] else filepathClean (['/'].intercalate kept)

/-! ## `regexp`: leftmost-first matching

Go's `regexp` returns the leftmost match and, among the matches that start
there, the one a backtracking search finds first.  `Regex.threads` lists the
ways a pattern can match a prefix of the input in exactly that search order, so
its head is the match Go reports. -/

/-- The part of the RE2 syntax that the patterns of `main.go` use. -/
inductive Regex where
  /-- A literal string. -/
  | lit (s : GoString)
  /-- Greedy repetition `[class]*` of a character class. -/
  | star (p : Char → Bool)
  /-- Greedy repetition `[class]+` of a character class. -/
  | plus (p : Char → Bool)
  /-- Alternation, the left branch is tried first. -/
  | alt (a b : Regex)
  /-- Concatenation. -/
  | seq (a b : Regex)
  /-- The capturing group (the patterns here have at most one). -/
  | group (a : Regex)

/-- One way of matching: the matched text, the text of the capturing group when
it took part, and the input left over. -/
structure Thread where
  matched : GoString
  capture : Option GoString
  rest : GoString
deriving DecidableEq

/-- All prefixes of a run, longest first, the empty one last. -/
def greedyCuts : GoString → List GoString
  | [] => [[]]
  | c :: cs => (greedyCuts cs).map (fun m => c :: m) ++ [[]]

/-- The ways `re` matches a prefix of the input, in backtracking order. -/
def Regex.threads : Regex → GoString → List Thread
  | .lit t, s => if t.isPrefixOf s then [⟨t, none, s.drop t.length⟩] else []
  | .star p, s => (greedyCuts (s.takeWhile p)).map (fun m => ⟨m, none, s.drop m.length⟩)
  | .plus p, s =>
    (greedyCuts (s.takeWhile p)).dropLast.map (fun m => ⟨m, none, s.drop m.length⟩)
  | .alt a b, s => a.threads s ++ b.threads s
  | .seq a b, s =>
    (a.threads s).flatMap (fun t1 =>
      (b.threads t1.rest).map (fun t2 =>
        ⟨t1.matched ++ t2.matched,
         (match t1.capture with
          | some c => some c
          | none => t2.capture),
         t2.rest⟩))
  | .group a, s => (a.threads s).map (fun t => ⟨t.matched, some t.matched, t.rest⟩)

/-- Leftmost match: the unmatched text skipped before it and the first thread
at the first position that has one. -/
def Regex.search (re : Regex) : GoString → Option (GoString × Thread)
  | [] => (re.threads []).head?.map (fun t => ([], t))
  | c :: cs =>
    match (re.threads (c :: cs)).head? with
    | some t => some ([], t)
    | none => (re.search cs).map (fun r => (c :: r.1, r.2))

/-- A stretch of scanned input: an unmatched rune, or a match with the text of
its capturing group. -/
inductive Piece where
  | rune (c : Char)
  | hit (whole : GoString) (capture : Option GoString)
deriving DecidableEq

/-- The loop shared by `FindAll...` and `ReplaceAll...`: successive leftmost
matches that do not overlap.  After an empty match the scan moves one rune on,
and an empty match right behind the previous match is not reported.  One unit
of `fuel` is spent for each search. -/
def Regex.scan (re : Regex) : Nat → Bool → GoString → List Piece
  | 0, _, s => s.map Piece.rune
  | fuel + 1, afterHit, s =>
    match re.search s with
    | none => s.map Piece.rune
    | some (skipped, t) =>
      if t.matched = [] then
        let here := if skipped = [] ∧ afterHit = true then [] else [Piece.hit [] t.capture]
        match t.rest with
        | [] => skipped.map Piece.rune ++ here
        | c :: cs => skipped.map Piece.rune ++ here ++ Piece.rune c :: re.scan fuel false cs
      else skipped.map Piece.rune ++ Piece.hit t.matched t.capture :: re.scan fuel true t.rest

/-- All pieces of an input; every search uses up a rune or ends the scan, so
`length + 1` units of fuel are enough. -/
def Regex.pieces (re : Regex) (s : GoString) : List Piece := re.scan (s.length + 1) false s

/-- The text a piece leaves in the output of a replacement: a rune stays, a
match becomes `repl`. -/
def Piece.text (repl : GoString) : Piece → GoString
  | Piece.rune c => [c]
  | Piece.hit _ _ => repl

/-- Model of `(*Regexp).ReplaceAllString` for a replacement text without `$`
expansions: matches are replaced, the text between them is kept. -/
def Regex.replaceAllString (re : Regex) (src repl : GoString) : GoString :=
  (re.pieces src).flatMap (Piece.text repl)

/-- Model of `(*Regexp).FindAllStringSubmatch(s, -1)` for a pattern with one
capturing group: for each match the whole match and the text of the group
(empty when the group took no part). -/
def Regex.findAllStringSubmatch (re : Regex) (s : GoString) : List (List GoString) :=
  (re.pieces s).filterMap (fun p =>
    match p with
    | Piece.rune _ => none
    | Piece.hit whole cap => some [whole, cap.getD []])

/-! ## The program -/

/-- The class `[a-z0-9]`. -/
def isLowerAlnum (c : Char) : Bool :=
  (97 ≤ c.toNat && c.toNat ≤ 122) || (48 ≤ c.toNat && c.toNat ≤ 57)

/-- The pattern `[^a-z0-9]+` of `urlToFilename`. -/
def nonAlphanumericRegex : Regex := .plus (fun c => !isLowerAlnum c)

/-- The pattern `_+` of `urlToFilename`. -/
def collapseUnderscoresRegex : Regex := .plus (fun c => c == '_')

/-- The class `[^"]`. -/
def notQuote (c : Char) : Bool := c != '"'

/-- The alternation `pdf|png|jpg|webp|zip|rar|stl|7z|json|txt`. -/
def extensionAlternation : Regex :=
  .alt (.lit "pdf".toList) (.alt (.lit "png".toList) (.alt (.lit "jpg".toList)
    (.alt (.lit "webp".toList) (.alt (.lit "zip".toList) (.alt (.lit "rar".toList)
      (.alt (.lit "stl".toList) (.alt (.lit "7z".toList) (.alt (.lit "json".toList)
        (.lit "txt".toList)))))))))

/-- The pattern of `extractFileUrls`:
`href="([^"]+\.(?:pdf|png|jpg|webp|zip|rar|stl|7z|json|txt)[^"]*)"`. -/
def fileLinkRegex : Regex :=
  .seq (.lit "href=\"".toList)
    (.seq
      (.group (.seq (.plus notQuote)
        (.seq (.lit ".".toList) (.seq extensionAlternation (.star notQuote)))))
      (.lit "\"".toList))

/-- Embedding of `getFileNameOnly`. -/
def getFileNameOnly (content : GoString) : GoString := pathBase content

/-- Embedding of `trimAfterQuestionMark`: the first part of the split at `?`. -/
def trimAfterQuestionMark (input : GoString) : GoString :=
  (stringsSplitN2 input ['?']).headD []

/-- Embedding of `removeSubstring`. -/
def removeSubstring (input toRemove : GoString) : GoString :=
  stringsReplaceAll input toRemove []

/-- Embedding of `getFileExtension`. -/
def getFileExtension (path : GoString) : GoString := filepathExt path

/-- Embedding of `urlToFilename`. -/
def urlToFilename (rawURL : GoString) : GoString :=
  let lowercaseURL := stringsToLower rawURL
  let ext := getFileExtension lowercaseURL
  let baseFilename := getFileNameOnly lowercaseURL
  let safeFilename := nonAlphanumericRegex.replaceAllString baseFilename ['_']
  let safeFilename := collapseUnderscoresRegex.replaceAllString safeFilename ['_']
  let safeFilename :=
    match stringsCutPrefix safeFilename ['_'] with
    | (trimmed, true) => trimmed
    | (_, false) => safeFilename
  let invalidPre := '_' :: ext
  let safeFilename := removeSubstring safeFilename invalidPre
  let safeFilename := safeFilename ++ ext
  trimAfterQuestionMark safeFilename

/-- The body of the loop of `removeDuplicatesFromSlice`, on the pair of the map
`check` and the slice `newReturnSlice`.  The map is kept as the list of its
entries, a missing key reading as `false`. -/
def dedupStep (st : List (GoString × Bool) × List GoString) (content : GoString) :
    List (GoString × Bool) × List GoString :=
  if !((st.1.lookup content).getD false) then
    ((content, true) :: st.1, st.2 ++ [content])
  else st

/-- Embedding of `removeDuplicatesFromSlice`. -/
def removeDuplicatesFromSlice (slice : List GoString) : List GoString :=
  (slice.foldl dedupStep ([], [])).2

/-- Embedding of `extractFileUrls` (the log line of the `else` branch is left
out). -/
def extractFileUrls (input : GoString) : List GoString :=
  let submatches := fileLinkRegex.findAllStringSubmatch input
  submatches.foldl
    (fun fileLinks m => if 1 < m.length then fileLinks ++ [m.getD 1 []] else fileLinks)
    []

/-! ## `downloadFile` over an explicit world -/

/-- What the file system holds at a path: a file with its bytes, or a
directory. -/
inductive Node where
  | file (content : List Nat)
  | dir
deriving DecidableEq

/-- The state a download can change: the file system, as a list of entries in
which the first entry for a path counts, and the GET requests sent so far. -/
structure World where
  fs : List (GoString × Node)
  requests : List GoString
deriving DecidableEq

/-- What a GET brings back: the status code, the bytes `io.Copy` reads from the
body, and whether reading the body ends with an error. -/
structure Response where
  statusCode : Nat
  body : List Nat
  readFails : Bool
deriving DecidableEq

/-- The outcomes that the network and the operating system decide. -/
structure Env where
  /-- The result of `client.Get`; `none` is a transport error. -/
  get : GoString → Option Response
  /-- Whether `os.Create` is refused at a path (permissions, a missing
  directory). -/
  createFails : GoString → Bool
  /-- How many bytes of a buffer reach the file at a path before the write
  stops; fewer than the buffer holds is a write error. -/
  written : GoString → List Nat → Nat

/-- Model of `os.Stat`: the entry at a path, `none` standing for the error. -/
def osStat (w : World) (name : GoString) : Option Node := w.fs.lookup name

/-- Embedding of `fileExists`. -/
def fileExists (w : World) (filename : GoString) : Bool :=
  match osStat w filename with
  | none => false
  | some info => !(info == Node.dir)

/-- The file system with the entry at `name` set to `node`. -/
def fsPut (fs : List (GoString × Node)) (name : GoString) (node : Node) :
    List (GoString × Node) :=
  (name, node) :: fs.filter (fun e => e.1 != name)

/-- Model of `os.Create`: refused on a directory or when the environment says
so, the world is then unchanged; otherwise the path holds an empty file. -/
def osCreate (env : Env) (w : World) (name : GoString) : Option World :=
  if osStat w name = some Node.dir ∨ env.createFails name = true then none
  else some { w with fs := fsPut w.fs name (Node.file []) }

/-- Model of `buf.WriteTo(out)` on the file just created at `name`: the bytes
that reach the file are stored; the flag tells whether all of them did. -/
def writeTo (env : Env) (w : World) (name : GoString) (buf : List Nat) : Bool × World :=
  let n := min (env.written name buf) buf.length
  (decide (n = buf.length), { w with fs := fsPut w.fs name (Node.file (buf.take n)) })

/-- Embedding of `downloadFile` (log lines are left out).  The result is the
returned flag and the world after the call. -/
def downloadFile (env : Env) (w : World) (finalURL outputDir : GoString) : Bool × World :=
  let filename := stringsToLower (urlToFilename finalURL)
  let filePath := filepathJoin [outputDir, filename]
  if fileExists w filePath then (false, w)
  else
    let w1 : World := { w with requests := w.requests ++ [finalURL] }
    match env.get finalURL with
    | none => (false, w1)
    | some resp =>
      if resp.statusCode ≠ 200 then (false, w1)
      else if resp.readFails then (false, w1)
      else if resp.body.length = 0 then (false, w1)
      else
        match osCreate env w1 filePath with
        | none => (false, w1)
        | some w2 =>
          match writeTo env w2 filePath resp.body with
          | (false, w3) => (false, w3)
          | (true, w3) => (true, w3)

/-! ## Notions used to state the properties -/

/-- The elements of a list that do not occur at an earlier position, in their
order; `seen` holds the earlier positions. -/
def firstOccurrencesFrom (seen : List GoString) : List GoString → List GoString
  | [] => []
  | x :: xs =>
    if x ∈ seen then firstOccurrencesFrom (seen ++ [x]) xs
    else x :: firstOccurrencesFrom (seen ++ [x]) xs

/-- The subsequence that keeps position `i` exactly when its value occurs at no
earlier position. -/
def firstOccurrences (l : List GoString) : List GoString :=
  (l.enum.filter (fun p => !(l.take p.1).contains p.2)).map Prod.snd

/-- The first position at which `x` occurs in a list (its length when `x` does
not occur). -/
def firstIndex (x : GoString) : List GoString → Nat
  | [] => 0
  | y :: ys => if y = x then 0 else firstIndex x ys + 1

/-- The part of a name before its last dot, the whole name when it has none. -/
def beforeLastDot (s : GoString) : GoString :=
  if '.' ∈ s then ((s.reverse.dropWhile (fun c => c != '.')).drop 1).reverse else s

/-- No two underscores in a row. -/
def NoDoubleUnderscore (s : GoString) : Prop := ¬ (['_', '_'] <:+: s)

/-- The characters `[a-z0-9_]`. -/
def isNameChar (c : Char) : Bool := isLowerAlnum c || c == '_'

/-- The extensions of the pattern of `extractFileUrls`. -/
def supportedExtensions : List GoString :=
  ["pdf".toList, "png".toList, "jpg".toList, "webp".toList, "zip".toList, "rar".toList,
   "stl".toList, "7z".toList, "json".toList, "txt".toList]

/-- A value holds, behind at least one rune, a dot directly followed by a
supported extension (anything may follow the extension). -/
def HasSupportedExtension (v : GoString) : Prop :=
  ∃ x e y, v = x ++ '.' :: (e ++ y) ∧ x ≠ [] ∧ e ∈ supportedExtensions

/-- A value ends with a dot and a supported extension, or does so up to a
query string that starts with `?`. -/
def hasSupportedEnding (v : GoString) : Bool :=
  (List.range (v.length + 1)).any (fun i =>
    supportedExtensions.any (fun e => ('.' :: e).isSuffixOf (v.take i)) &&
      ((v.drop i).head? == none || (v.drop i).head? == some '?'))

/-- The path `downloadFile` writes to. -/
def targetPath (finalURL outputDir : GoString) : GoString :=
  filepathJoin [outputDir, stringsToLower (urlToFilename finalURL)]

/-- The last `/`-separated segment of a text. -/
def lastSegment (s : GoString) : GoString :=
  (s.reverse.takeWhile (fun c => c != '/')).reverse

/-- The suffix of a segment that starts at its last dot, empty when the segment
has no dot. -/
def dotSuffix (seg : GoString) : GoString :=
  if '.' ∈ seg then '.' :: (seg.reverse.takeWhile (fun c => c != '.')).reverse else []

/-- The query string of a URL with its marker: the text from the first `?` on. -/
def queryPart (u : GoString) : GoString := u.dropWhile (fun c => c != '?')

/-- Lower-cased extension of the path component of a URL: the suffix that
starts at the last dot of the last segment of the text before the first `?`,
in lower case. -/
def pathExtension (u : GoString) : GoString :=
  stringsToLower (dotSuffix (lastSegment (u.takeWhile (fun c => c != '?'))))

/-- A world with an empty file system and no request sent. -/
def emptyWorld : World := ⟨[], []⟩

/-- An environment in which every GET is answered with the given status and
body, `os.Create` is refused or not, and a write stores at most `written`
bytes. -/
def servingEnv (status : Nat) (body : List Nat) (createFails : Bool) (written : Nat) : Env :=
  ⟨fun _ => some ⟨status, body, false⟩, fun _ => createFails, fun _ _ => written⟩


/-! ## De-duplication -/

theorem removeDuplicatesFromSlice_eq_foldl (slice : List GoString) :
    removeDuplicatesFromSlice slice = (slice.foldl dedupStep ([], [])).2 := rfl

theorem dedup_foldl (xs : List GoString) :
    ∀ (check : List (GoString × Bool)) (acc seen : List GoString),
      (∀ x, (check.lookup x).getD false = true ↔ x ∈ seen) →
      (xs.foldl dedupStep (check, acc)).2 = acc ++ firstOccurrencesFrom seen xs := by
  induction xs with
  | nil => intro check acc seen _; simp [firstOccurrencesFrom]
  | cons x xs ih =>
    intro check acc seen h
    by_cases hx : x ∈ seen
    · have hl : (check.lookup x).getD false = true := (h x).2 hx
      have hstep : dedupStep (check, acc) x = (check, acc) := by simp [dedupStep, hl]
      rw [List.foldl_cons, hstep, ih check acc (seen ++ [x])]
      · simp [firstOccurrencesFrom, hx]
      · intro y
        rw [h y]
        constructor
        · intro hy; exact List.mem_append_left _ hy
        · intro hy
          rcases List.mem_append.1 hy with hy | hy
          · exact hy
          · rw [List.mem_singleton] at hy; rw [hy]; exact hx
    · have hl : (check.lookup x).getD false = false := by
        cases hb : (check.lookup x).getD false with
        | false => rfl
        | true => exact absurd ((h x).1 hb) hx
      have hstep : dedupStep (check, acc) x = ((x, true) :: check, acc ++ [x]) := by
        simp [dedupStep, hl]
      rw [List.foldl_cons, hstep, ih ((x, true) :: check) (acc ++ [x]) (seen ++ [x])]
      · simp [firstOccurrencesFrom, hx]
      · intro y
        by_cases hyx : y = x
        · subst hyx; simp [List.lookup]
        · have hne : (y == x) = false := by simpa using hyx
          simp [List.lookup, hne, h y, hyx]

theorem firstOccurrencesFrom_eq_filter (xs : List GoString) :
    ∀ seen : List GoString,
      firstOccurrencesFrom seen xs =
        ((List.enumFrom seen.length xs).filter
          (fun p => !((seen ++ xs).take p.1).contains p.2)).map Prod.snd := by
  induction xs with
  | nil => intro seen; simp [firstOccurrencesFrom]
  | cons x xs ih =>
    intro seen
    have hl : (seen ++ [x]).length = seen.length + 1 := by simp
    have ha : seen ++ [x] ++ xs = seen ++ x :: xs := by simp
    have ih2 := ih (seen ++ [x])
    rw [hl, ha] at ih2
    by_cases hx : x ∈ seen
    · simp [firstOccurrencesFrom, hx, List.enumFrom, List.filter, ih2]
    · simp [firstOccurrencesFrom, hx, List.enumFrom, List.filter, ih2]

theorem firstOccurrencesFrom_mem (xs : List GoString) :
    ∀ (seen : List GoString) (y : GoString),
      y ∈ firstOccurrencesFrom seen xs ↔ y ∈ xs ∧ y ∉ seen := by
  induction xs with
  | nil => intro seen y; simp [firstOccurrencesFrom]
  | cons x xs ih =>
    intro seen y
    by_cases hx : x ∈ seen
    · simp only [firstOccurrencesFrom, hx, if_true, ih, List.mem_append, List.mem_cons,
        List.not_mem_nil, or_false]
      constructor
      · rintro ⟨h1, h2⟩; exact ⟨Or.inr h1, fun h => h2 (Or.inl h)⟩
      · rintro ⟨h1 | h1, h2⟩
        · subst h1; exact absurd hx h2
        · refine ⟨h1, ?_⟩
          rintro (h | h)
          · exact h2 h
          · subst h; exact h2 hx
    · simp only [firstOccurrencesFrom, hx, if_false, ih, List.mem_append, List.mem_cons,
        List.not_mem_nil, or_false]
      constructor
      · rintro (h | ⟨h1, h2⟩)
        · subst h; exact ⟨Or.inl rfl, hx⟩
        · exact ⟨Or.inr h1, fun h => h2 (Or.inl h)⟩
      · rintro ⟨h1 | h1, h2⟩
        · exact Or.inl h1
        · by_cases hyx : y = x
          · exact Or.inl hyx
          · refine Or.inr ⟨h1, ?_⟩
            rintro (h | h)
            · exact h2 h
            · exact hyx h

theorem firstOccurrencesFrom_nodup (xs : List GoString) :
    ∀ seen : List GoString, (firstOccurrencesFrom seen xs).Nodup := by
  induction xs with
  | nil => intro seen; simp [firstOccurrencesFrom]
  | cons x xs ih =>
    intro seen
    by_cases hx : x ∈ seen
    · simp only [firstOccurrencesFrom, hx, if_true]; exact ih _
    · simp only [firstOccurrencesFrom, hx, if_false, List.nodup_cons]
      refine ⟨?_, ih _⟩
      rw [firstOccurrencesFrom_mem]
      simp

theorem firstIndex_append_cons_self (seen xs : List GoString) (x : GoString) (hx : x ∉ seen) :
    firstIndex x (seen ++ x :: xs) = seen.length := by
  induction seen with
  | nil => simp [firstIndex]
  | cons s seen ih =>
    have h1 : s ≠ x := fun h => hx (by simp [h])
    have h2 : x ∉ seen := fun h => hx (List.mem_cons_of_mem _ h)
    simp [firstIndex, h1, ih h2]

theorem firstIndex_append_cons_later (seen xs : List GoString) (x y : GoString)
    (hy : y ∉ seen) (hyx : y ≠ x) :
    seen.length < firstIndex y (seen ++ x :: xs) := by
  induction seen with
  | nil => simp [firstIndex, Ne.symm hyx]
  | cons s seen ih =>
    have h1 : s ≠ y := fun h => hy (by simp [h])
    have h2 : y ∉ seen := fun h => hy (List.mem_cons_of_mem _ h)
    simp [firstIndex, h1, ih h2]

theorem firstOccurrencesFrom_order (xs : List GoString) :
    ∀ seen : List GoString,
      (firstOccurrencesFrom seen xs).Pairwise
        (fun a b => firstIndex a (seen ++ xs) < firstIndex b (seen ++ xs)) := by
  induction xs with
  | nil => intro seen; simp [firstOccurrencesFrom]
  | cons x xs ih =>
    intro seen
    have ha : seen ++ [x] ++ xs = seen ++ x :: xs := by simp
    have ih2 := ih (seen ++ [x])
    rw [ha] at ih2
    by_cases hx : x ∈ seen
    · simp only [firstOccurrencesFrom, hx, if_true]; exact ih2
    · simp only [firstOccurrencesFrom, hx, if_false, List.pairwise_cons]
      refine ⟨?_, ih2⟩
      intro b hb
      rw [firstOccurrencesFrom_mem] at hb
      have hb1 : b ∉ seen := fun h => hb.2 (List.mem_append_left _ h)
      have hb2 : b ≠ x := fun h => hb.2 (by simp [h])
      rw [firstIndex_append_cons_self seen xs x hx]
      exact firstIndex_append_cons_later seen xs x b hb1 hb2

/-- C1: `removeDuplicatesFromSlice` keeps position `i` of its input exactly when
the value there occurs at no earlier position; so its result has no repeated
element, has the same elements as the input, and lists them in the order of
their first positions; `["x","y","x","z","y"]` gives `["x","y","z"]`. -/
theorem removeDuplicatesFromSlice_first_occurrences (l : List GoString) :
    removeDuplicatesFromSlice l = firstOccurrences l ∧
    (removeDuplicatesFromSlice l).Nodup ∧
    (∀ x, x ∈ removeDuplicatesFromSlice l ↔ x ∈ l) ∧
    (removeDuplicatesFromSlice l).Pairwise (fun a b => firstIndex a l < firstIndex b l) ∧
    removeDuplicatesFromSlice [['x'], ['y'], ['x'], ['z'], ['y']] = [['x'], ['y'], ['z']] := by
  have h : removeDuplicatesFromSlice l = firstOccurrencesFrom [] l := by
    rw [removeDuplicatesFromSlice_eq_foldl, dedup_foldl l [] [] []]
    · simp
    · intro x; simp
  refine ⟨?_, ?_, ?_, ?_, by decide⟩
  · rw [h, firstOccurrencesFrom_eq_filter]
    simp [firstOccurrences, List.enum]
  · rw [h]; exact firstOccurrencesFrom_nodup l []
  · intro x; rw [h, firstOccurrencesFrom_mem]; simp
  · rw [h]; simpa using firstOccurrencesFrom_order l []

/-! ## Matching a repeated character class -/

theorem greedyCuts_head : ∀ r : GoString, (greedyCuts r).head? = some r
  | [] => rfl
  | c :: cs => by
    simp [greedyCuts, List.head?_append, List.head?_map, greedyCuts_head cs]

theorem greedyCuts_dropLast_head (r : GoString) :
    (greedyCuts r).dropLast.head? = if r = [] then none else some r := by
  cases r with
  | nil => simp [greedyCuts]
  | cons c cs =>
    simp [greedyCuts, List.dropLast_concat, List.head?_map, greedyCuts_head cs]

theorem drop_length_takeWhile (p : Char → Bool) (s : GoString) :
    s.drop (s.takeWhile p).length = s.dropWhile p := by
  induction s with
  | nil => rfl
  | cons c cs ih =>
    by_cases h : p c = true
    · simp [List.takeWhile, List.dropWhile, h, ih]
    · simp [List.takeWhile, List.dropWhile, h]

theorem threads_plus_head (p : Char → Bool) (s : GoString) :
    ((Regex.plus p).threads s).head? =
      if s.takeWhile p = [] then none
      else some ⟨s.takeWhile p, none, s.dropWhile p⟩ := by
  simp only [Regex.threads, List.head?_map, greedyCuts_dropLast_head]
  by_cases h : s.takeWhile p = []
  · simp [h]
  · simp [h, drop_length_takeWhile]

theorem search_plus (p : Char → Bool) (s : GoString) :
    (Regex.plus p).search s =
      if s.dropWhile (fun c => !p c) = [] then none
      else some (s.takeWhile (fun c => !p c),
        ⟨(s.dropWhile (fun c => !p c)).takeWhile p, none,
         (s.dropWhile (fun c => !p c)).dropWhile p⟩) := by
  induction s with
  | nil => simp [Regex.search, Regex.threads, greedyCuts]
  | cons c cs ih =>
    rw [Regex.search, threads_plus_head]
    by_cases h : p c = true
    · simp [List.takeWhile, List.dropWhile, h]
    · simp only [Bool.not_eq_true] at h
      simp only [List.takeWhile, List.dropWhile, h, Bool.not_false, ih]
      by_cases h2 : cs.dropWhile (fun c => !p c) = []
      · simp [h2]
      · simp [h2]

theorem flatMap_rune (repl s : GoString) :
    (s.map Piece.rune).flatMap (Piece.text repl) = s := by
  induction s with
  | nil => rfl
  | cons c cs ih => simp [List.flatMap_cons, Piece.text, ih]

theorem dropWhile_head_of_ne_nil (p : Char → Bool) (s : GoString)
    (h : s.dropWhile (fun c => !p c) ≠ []) :
    (s.dropWhile (fun c => !p c)).takeWhile p ≠ [] := by
  induction s with
  | nil => simp at h
  | cons c cs ih =>
    by_cases hc : p c = true
    · simp [List.dropWhile, List.takeWhile, hc]
    · simp only [Bool.not_eq_true] at hc
      simp only [List.dropWhile, hc, Bool.not_false] at h ⊢
      exact ih h

/-- One round of the scan for a pattern `[class]+`, as output text. -/
theorem scan_plus_succ (p : Char → Bool) (repl : GoString) (fuel : Nat) (b : Bool)
    (s : GoString) :
    ((Regex.plus p).scan (fuel + 1) b s).flatMap (Piece.text repl) =
      if s.dropWhile (fun c => !p c) = [] then s
      else s.takeWhile (fun c => !p c) ++ repl ++
        ((Regex.plus p).scan fuel true
          ((s.dropWhile (fun c => !p c)).dropWhile p)).flatMap (Piece.text repl) := by
  rw [Regex.scan, search_plus]
  by_cases h : s.dropWhile (fun c => !p c) = []
  · simp only [h, if_true]
    exact flatMap_rune repl s
  · have hm := dropWhile_head_of_ne_nil p s h
    simp only [h, if_false, hm]
    simp [List.flatMap_append, List.flatMap_cons, flatMap_rune, Piece.text]

theorem rest_length_lt (p : Char → Bool) (s : GoString)
    (h : s.dropWhile (fun c => !p c) ≠ []) :
    ((s.dropWhile (fun c => !p c)).dropWhile p).length < s.length := by
  have hm := dropWhile_head_of_ne_nil p s h
  have h1 := List.takeWhile_append_dropWhile (fun c => !p c) s
  have h2 := List.takeWhile_append_dropWhile p (s.dropWhile (fun c => !p c))
  have h3 : 0 < ((s.dropWhile (fun c => !p c)).takeWhile p).length :=
    List.length_pos.2 hm
  have e1 := congrArg List.length h1
  have e2 := congrArg List.length h2
  simp only [List.length_append] at e1 e2
  omega

theorem mem_of_mem_rest (p : Char → Bool) (s : GoString) (c : Char)
    (h : c ∈ (s.dropWhile (fun c => !p c)).dropWhile p) : c ∈ s :=
  (List.dropWhile_sublist _).subset ((List.dropWhile_sublist _).subset h)

/-- Every rune of the output of replacing `[class]+` is a rune of the input
outside the class or a rune of the replacement. -/
theorem scan_plus_mem (p : Char → Bool) (repl : GoString) :
    ∀ (fuel : Nat) (b : Bool) (s : GoString), s.length < fuel →
      ∀ c ∈ ((Regex.plus p).scan fuel b s).flatMap (Piece.text repl),
        (c ∈ s ∧ p c = false) ∨ c ∈ repl := by
  intro fuel
  induction fuel with
  | zero => intro b s h; omega
  | succ n ih =>
    intro b s hlen c hc
    rw [scan_plus_succ] at hc
    by_cases h : s.dropWhile (fun c => !p c) = []
    · rw [if_pos h] at hc
      rw [List.dropWhile_eq_nil_iff] at h
      have := h c hc
      left; exact ⟨hc, by simpa using this⟩
    · rw [if_neg h] at hc
      have hl := rest_length_lt p s h
      rcases List.mem_append.1 hc with hc | hc
      · rcases List.mem_append.1 hc with hc | hc
        · left
          refine ⟨(List.takeWhile_sublist _).subset hc, ?_⟩
          have := List.mem_takeWhile_imp hc
          simpa using this
        · right; exact hc
      · rcases ih true _ (by omega) c hc with ⟨h1, h2⟩ | h1
        · left; exact ⟨mem_of_mem_rest p s c h1, h2⟩
        · right; exact h1

theorem replaceAllString_plus_mem (p : Char → Bool) (src repl : GoString) :
    ∀ c ∈ (Regex.plus p).replaceAllString src repl, (c ∈ src ∧ p c = false) ∨ c ∈ repl :=
  scan_plus_mem p repl (src.length + 1) false src (Nat.lt_succ_self _)

/-- Replacing `[class]+` in a text without a rune of the class changes nothing. -/
theorem replaceAllString_plus_id (p : Char → Bool) (src repl : GoString)
    (h : ∀ c ∈ src, p c = false) :
    (Regex.plus p).replaceAllString src repl = src := by
  have hd : src.dropWhile (fun c => !p c) = [] := by
    rw [List.dropWhile_eq_nil_iff]
    intro c hc
    simp [h c hc]
  show ((Regex.plus p).scan (src.length + 1) false src).flatMap (Piece.text repl) = src
  rw [scan_plus_succ, if_pos hd]

/-- The output of replacing `[class]+` starts like the input when the input
starts outside the class. -/
theorem scan_plus_head (p : Char → Bool) (repl : GoString) (fuel : Nat) (b : Bool)
    (c : Char) (cs : GoString) (hc : p c = false) :
    (((Regex.plus p).scan fuel b (c :: cs)).flatMap (Piece.text repl)).head? = some c := by
  cases fuel with
  | zero => rw [Regex.scan, flatMap_rune]; rfl
  | succ n =>
    rw [scan_plus_succ]
    by_cases h : (c :: cs).dropWhile (fun c => !p c) = []
    · rw [if_pos h]; rfl
    · rw [if_neg h]
      simp [List.takeWhile, hc]

/-! ## No two underscores in a row -/

theorem chain_underscore_join (t o : GoString) (ht : '_' ∉ t)
    (ho : o.Chain' (fun a b => ¬(a = '_' ∧ b = '_'))) (hh : o.head? ≠ some '_') :
    (t ++ '_' :: o).Chain' (fun a b => ¬(a = '_' ∧ b = '_')) := by
  induction t with
  | nil =>
    rw [List.nil_append, List.chain'_cons']
    refine ⟨?_, ho⟩
    intro y hy h
    rw [Option.mem_def] at hy
    rw [h.2] at hy
    exact hh hy
  | cons x xs ih =>
    rw [List.cons_append, List.chain'_cons']
    refine ⟨?_, ih (fun h => ht (List.mem_cons_of_mem _ h))⟩
    intro y _ h
    exact ht (by simp [h.1])

theorem chain_of_no_underscore (t : GoString) (ht : '_' ∉ t) :
    t.Chain' (fun a b => ¬(a = '_' ∧ b = '_')) := by
  induction t with
  | nil => exact List.chain'_nil
  | cons x xs ih =>
    rw [List.chain'_cons']
    refine ⟨?_, ih (fun h => ht (List.mem_cons_of_mem _ h))⟩
    intro y _ h
    exact ht (by simp [h.1])

theorem rest_head_not (p : Char → Bool) (s : GoString) (c : Char) (cs : GoString)
    (hr : (s.dropWhile (fun c => !p c)).dropWhile p = c :: cs) : p c = false := by
  have h := List.head_dropWhile_not p (s.dropWhile (fun c => !p c))
  simp only [hr] at h
  simpa using h (by simp)

/-- After replacing `_+` by `_` no two underscores are left in a row (`p` is
the class of the underscore). -/
theorem scan_underscore_chain (p : Char → Bool) (hp : ∀ c, p c = true ↔ c = '_') :
    ∀ (fuel : Nat) (b : Bool) (s : GoString), s.length < fuel →
      (((Regex.plus p).scan fuel b s).flatMap (Piece.text ['_'])).Chain'
        (fun a b => ¬(a = '_' ∧ b = '_')) := by
  intro fuel
  induction fuel with
  | zero => intro b s h; omega
  | succ n ih =>
    intro b s hlen
    rw [scan_plus_succ]
    by_cases h : s.dropWhile (fun c => !p c) = []
    · rw [if_pos h]
      apply chain_of_no_underscore
      rw [List.dropWhile_eq_nil_iff] at h
      intro hm
      have h1 := h _ hm
      have h2 := (hp '_').2 rfl
      simp [h2] at h1
    · rw [if_neg h]
      have hl := rest_length_lt p s h
      rw [List.append_assoc]
      apply chain_underscore_join
      · intro hm
        have h1 := List.mem_takeWhile_imp hm
        have h2 := (hp '_').2 rfl
        simp [h2] at h1
      · exact ih true _ (by omega)
      · generalize hr : (s.dropWhile (fun c => !p c)).dropWhile p = rest
        cases rest with
        | nil => cases n <;> simp [Regex.scan, Regex.search, Regex.threads, greedyCuts]
        | cons c cs =>
          have hc : p c = false := rest_head_not p s c cs hr
          show (((Regex.plus p).scan n true (c :: cs)).flatMap (Piece.text ['_'])).head? ≠ some '_'
          rw [scan_plus_head p ['_'] n true c cs hc]
          intro h3
          injection h3 with h3
          rw [h3, (hp '_').2 rfl] at hc
          exact absurd hc (by decide)

theorem replaceAllString_underscore_chain (src : GoString) :
    (collapseUnderscoresRegex.replaceAllString src ['_']).Chain'
      (fun a b => ¬(a = '_' ∧ b = '_')) :=
  scan_underscore_chain (fun c => c == '_') (fun c => by simp) (src.length + 1) false src
    (Nat.lt_succ_self _)

/-! ## The string helpers of `urlToFilename` -/

theorem beforeSep_question (s : GoString) :
    beforeSep ['?'] s = s.takeWhile (fun c => c != '?') := by
  induction s with
  | nil => rfl
  | cons c cs ih =>
    by_cases h : c = '?'
    · subst h; simp [beforeSep, List.isPrefixOf, List.takeWhile]
    · have h1 : (c == '?') = false := by simpa using h
      have h2 : ('?' == c) = false := by simpa using fun e : '?' = c => h e.symm
      have h3 : (c != '?') = true := by simpa using h
      simp [beforeSep, List.isPrefixOf, List.takeWhile_cons, h3, h2, ih]

theorem afterSep_none (s : GoString) (h : afterSep ['?'] s = none) :
    s.takeWhile (fun c => c != '?') = s := by
  induction s with
  | nil => rfl
  | cons c cs ih =>
    by_cases hc : c = '?'
    · subst hc; simp [afterSep, List.isPrefixOf] at h
    · have h1 : (c == '?') = false := by simpa using hc
      have h2 : ('?' == c) = false := by simpa using fun e : '?' = c => hc e.symm
      simp only [afterSep, List.isPrefixOf, h2, Bool.false_and] at h
      have h3 : (c != '?') = true := by simpa using hc
      simp [List.takeWhile_cons, h3, ih (by simpa using h)]

/-- What `trimAfterQuestionMark` returns is the text before the first `?`. -/
theorem trimAfterQuestionMark_eq (s : GoString) :
    trimAfterQuestionMark s = s.takeWhile (fun c => c != '?') := by
  unfold trimAfterQuestionMark stringsSplitN2
  cases h : afterSep ['?'] s with
  | none => simp [afterSep_none s h]
  | some r => simp [beforeSep_question]

theorem extLoop_shape (rev : GoString) :
    ∀ acc : GoString, '.' ∉ acc → '/' ∉ acc →
      extLoop rev acc = [] ∨ ∃ r, extLoop rev acc = '.' :: r ∧ '.' ∉ r ∧ '/' ∉ r := by
  induction rev with
  | nil => intro acc _ _; left; rfl
  | cons c rev ih =>
    intro acc h1 h2
    by_cases hs : c = '/'
    · left; simp [extLoop, hs]
    · by_cases hd : c = '.'
      · right; exact ⟨acc, by simp [extLoop, hd], h1, h2⟩
      · simp only [extLoop, hs, hd, if_false]
        apply ih
        · simp only [List.mem_cons, not_or]; exact ⟨fun e => hd e.symm, h1⟩
        · simp only [List.mem_cons, not_or]; exact ⟨fun e => hs e.symm, h2⟩

/-- An extension is empty or a dot followed by runes other than `.` and `/`. -/
theorem filepathExt_shape (path : GoString) :
    filepathExt path = [] ∨ ∃ r, filepathExt path = '.' :: r ∧ '.' ∉ r ∧ '/' ∉ r :=
  extLoop_shape path.reverse [] (by simp) (by simp)

theorem extLoop_suffix (rev : GoString) :
    ∀ acc : GoString, extLoop rev acc <:+ rev.reverse ++ acc := by
  induction rev with
  | nil => intro acc; simp [extLoop]
  | cons c rev ih =>
    intro acc
    by_cases hs : c = '/'
    · simp [extLoop, hs]
    · by_cases hd : c = '.'
      · simp only [extLoop, hs, hd, if_false, if_true, List.reverse_cons, List.append_assoc,
          List.singleton_append]
        exact List.suffix_append _ _
      · simp only [extLoop, hs, hd, if_false, List.reverse_cons, List.append_assoc,
          List.singleton_append]
        exact ih (c :: acc)

/-- An extension is a suffix of the path. -/
theorem filepathExt_suffix (path : GoString) : filepathExt path <:+ path := by
  have h := extLoop_suffix path.reverse []
  simpa [filepathExt] using h

theorem replaceScan_no_occurrence (old new : GoString) (d : Char) (hd : d ∈ old) :
    ∀ s : GoString, d ∉ s → replaceScan old new 0 s = s := by
  intro s
  induction s with
  | nil => intro _; rfl
  | cons c cs ih =>
    intro h
    have hp : old.isPrefixOf (c :: cs) = false := by
      cases hb : old.isPrefixOf (c :: cs) with
      | false => rfl
      | true =>
        have hpre : old <+: c :: cs := List.isPrefixOf_iff_prefix.1 hb
        exact absurd (hpre.subset hd) h
    rw [replaceScan]
    simp only [hp, Bool.false_eq_true, if_false]
    rw [ih (fun hm => h (List.mem_cons_of_mem _ hm))]

/-- Removing `_` followed by a non-empty extension from a name without a dot
changes nothing: the pattern holds a dot. -/
theorem removeSubstring_ext (s r : GoString) (h : '.' ∉ s) :
    removeSubstring s ('_' :: '.' :: r) = s := by
  unfold removeSubstring stringsReplaceAll
  simp only [reduceCtorEq, if_false]
  exact replaceScan_no_occurrence _ _ '.' (by simp) s h

theorem replaceScan_underscore (s : GoString) :
    replaceScan ['_'] [] 0 s = s.filter (fun c => c != '_') := by
  induction s with
  | nil => rfl
  | cons c cs ih =>
    by_cases hc : c = '_'
    · subst hc
      rw [replaceScan]
      simp [List.isPrefixOf, ih]
    · have h2 : ('_' == c) = false := by simpa using fun e : '_' = c => hc e.symm
      have h1 : (c != '_') = true := by simpa using hc
      rw [replaceScan]
      simp [List.isPrefixOf, h2, List.filter, h1, ih]

/-- With an empty extension the pattern is `_` alone and every underscore goes. -/
theorem removeSubstring_underscore (s : GoString) :
    removeSubstring s ['_'] = s.filter (fun c => c != '_') := by
  unfold removeSubstring stringsReplaceAll
  simp only [reduceCtorEq, if_false]
  exact replaceScan_underscore s

theorem beforeLastDot_no_dot (s : GoString) (h : '.' ∉ s) : beforeLastDot s = s := by
  simp [beforeLastDot, h]

theorem beforeLastDot_append (s r : GoString) (h : '.' ∉ r) :
    beforeLastDot (s ++ '.' :: r) = s := by
  have hm : '.' ∈ s ++ '.' :: r := by simp
  have hd : (r.reverse).dropWhile (fun c => c != '.') = [] := by
    rw [List.dropWhile_eq_nil_iff]
    intro c hc
    have : c ≠ '.' := fun e => h (by rw [← e]; exact List.mem_reverse.1 hc)
    simpa using this
  have hr : ∀ c ∈ r.reverse, (fun c => c != '.') c = true := by
    intro c hc
    have : c ≠ '.' := fun e => h (by rw [← e]; exact List.mem_reverse.1 hc)
    simpa using this
  simp only [beforeLastDot, hm, if_true, List.reverse_append, List.reverse_cons,
    List.append_assoc, List.singleton_append]
  rw [List.dropWhile_append_of_pos hr]
  simp [List.dropWhile]

/-! ## The shape of the names `urlToFilename` returns -/

theorem cutPrefix_underscore (s : GoString) :
    (match stringsCutPrefix s ['_'] with
      | (trimmed, true) => trimmed
      | (_, false) => s) = if s.head? = some '_' then s.tail else s := by
  cases s with
  | nil => simp [stringsCutPrefix, List.isPrefixOf]
  | cons c cs =>
    by_cases hc : c = '_'
    · subst hc; simp [stringsCutPrefix, List.isPrefixOf]
    · have h2 : ('_' == c) = false := by simpa using fun e : '_' = c => hc e.symm
      simp [stringsCutPrefix, List.isPrefixOf, h2, hc]

theorem isNameChar_ne_dot (c : Char) (h : isNameChar c = true) : c ≠ '.' := by
  intro e; subst e; revert h; decide

theorem isNameChar_ne_question (c : Char) (h : isNameChar c = true) : c ≠ '?' := by
  intro e; subst e; revert h; decide

/-- The name before the extension guard: the base name with runs outside
`[a-z0-9]` replaced, underscores collapsed and a leading underscore cut. -/
theorem cut_name_props (b : GoString) :
    (∀ c ∈ (match stringsCutPrefix
        (collapseUnderscoresRegex.replaceAllString
          (nonAlphanumericRegex.replaceAllString b ['_']) ['_']) ['_'] with
      | (trimmed, true) => trimmed
      | (_, false) => collapseUnderscoresRegex.replaceAllString
          (nonAlphanumericRegex.replaceAllString b ['_']) ['_']), isNameChar c = true) ∧
    (match stringsCutPrefix
        (collapseUnderscoresRegex.replaceAllString
          (nonAlphanumericRegex.replaceAllString b ['_']) ['_']) ['_'] with
      | (trimmed, true) => trimmed
      | (_, false) => collapseUnderscoresRegex.replaceAllString
          (nonAlphanumericRegex.replaceAllString b ['_']) ['_']).head? ≠ some '_' ∧
    (match stringsCutPrefix
        (collapseUnderscoresRegex.replaceAllString
          (nonAlphanumericRegex.replaceAllString b ['_']) ['_']) ['_'] with
      | (trimmed, true) => trimmed
      | (_, false) => collapseUnderscoresRegex.replaceAllString
          (nonAlphanumericRegex.replaceAllString b ['_']) ['_']).Chain'
        (fun a b => ¬(a = '_' ∧ b = '_')) := by
  rw [cutPrefix_underscore]
  generalize hs1 : nonAlphanumericRegex.replaceAllString b ['_'] = s1
  have h1 : ∀ c ∈ s1, isNameChar c = true := by
    intro c hc
    rw [← hs1] at hc
    rcases replaceAllString_plus_mem _ b ['_'] c hc with ⟨_, h⟩ | h
    · simp only [Bool.not_eq_false'] at h
      simp [isNameChar, h]
    · rw [List.mem_singleton] at h; subst h; decide
  have hchain := replaceAllString_underscore_chain s1
  have h2 : ∀ c ∈ collapseUnderscoresRegex.replaceAllString s1 ['_'], isNameChar c = true := by
    intro c hc
    rcases replaceAllString_plus_mem _ s1 ['_'] c hc with ⟨h, _⟩ | h
    · exact h1 c h
    · rw [List.mem_singleton] at h; subst h; decide
  generalize collapseUnderscoresRegex.replaceAllString s1 ['_'] = s2 at hchain h2
  cases s2 with
  | nil => simp
  | cons c cs =>
    by_cases hc : c = '_'
    · subst hc
      simp only [List.head?_cons, if_true, List.tail_cons]
      rw [List.chain'_cons'] at hchain
      refine ⟨fun c hc => h2 c (List.mem_cons_of_mem _ hc), ?_, hchain.2⟩
      intro hh
      exact hchain.1 '_' (by simp [hh]) ⟨rfl, rfl⟩
    · have hne : ¬ (some c = some '_') := fun e => hc (Option.some.inj e)
      simp only [List.head?_cons, hne, if_false]
      exact ⟨h2, hne, hchain⟩

/-- The shape of a returned name: a stem over `[a-z0-9_]` without a leading or
a doubled underscore, without any underscore when the extension is empty,
followed by the extension of the lower-cased URL cut at its first `?`. -/
theorem urlToFilename_decomp (u : GoString) :
    ∃ stem : GoString,
      urlToFilename u =
        stem ++ (getFileExtension (stringsToLower u)).takeWhile (fun c => c != '?') ∧
      (∀ c ∈ stem, isNameChar c = true) ∧
      stem.head? ≠ some '_' ∧
      stem.Chain' (fun a b => ¬(a = '_' ∧ b = '_')) ∧
      (getFileExtension (stringsToLower u) = [] → ∀ c ∈ stem, isLowerAlnum c = true) := by
  obtain ⟨hmem, hhead, hchain⟩ := cut_name_props (getFileNameOnly (stringsToLower u))
  unfold urlToFilename
  simp only []
  generalize (match stringsCutPrefix
        (collapseUnderscoresRegex.replaceAllString
          (nonAlphanumericRegex.replaceAllString (getFileNameOnly (stringsToLower u)) ['_'])
          ['_']) ['_'] with
      | (trimmed, true) => trimmed
      | (_, false) => collapseUnderscoresRegex.replaceAllString
          (nonAlphanumericRegex.replaceAllString (getFileNameOnly (stringsToLower u)) ['_'])
          ['_']) = s3 at hmem hhead hchain
  have hq : ∀ s : GoString, (∀ c ∈ s, isNameChar c = true) →
      ∀ e : GoString, trimAfterQuestionMark (s ++ e) = s ++ e.takeWhile (fun c => c != '?') := by
    intro s hs e
    rw [trimAfterQuestionMark_eq, List.takeWhile_append_of_pos]
    intro c hc
    simpa using isNameChar_ne_question c (hs c hc)
  rcases filepathExt_shape (stringsToLower u) with he | ⟨r, he, _, _⟩
  · have he2 : getFileExtension (stringsToLower u) = [] := he
    rw [he2, removeSubstring_underscore]
    have hf : ∀ c ∈ s3.filter (fun c => c != '_'), isLowerAlnum c = true := by
      intro c hc
      rw [List.mem_filter] at hc
      have h1 := hmem c hc.1
      have h2 : (c == '_') = false := by simpa using hc.2
      simpa [isNameChar, h2] using h1
    have hf2 : ∀ c ∈ s3.filter (fun c => c != '_'), isNameChar c = true := by
      intro c hc; simp [isNameChar, hf c hc]
    have hno : '_' ∉ s3.filter (fun c => c != '_') := by
      intro h; rw [List.mem_filter] at h; simp at h
    refine ⟨s3.filter (fun c => c != '_'), ?_, hf2, ?_, chain_of_no_underscore _ hno, fun _ => hf⟩
    · rw [hq _ hf2]
    · intro h
      exact hno (List.mem_of_mem_head? h)
  · have he2 : getFileExtension (stringsToLower u) = '.' :: r := he
    have hdot : '.' ∉ s3 := fun h => isNameChar_ne_dot _ (hmem _ h) rfl
    rw [he2, removeSubstring_ext s3 r hdot]
    refine ⟨s3, hq s3 hmem _, hmem, hhead, hchain, ?_⟩
    intro h; exact absurd h (by simp)

theorem noDouble_of_chain (s : GoString)
    (h : s.Chain' (fun a b => ¬(a = '_' ∧ b = '_'))) : NoDoubleUnderscore s := by
  intro hin
  have h2 := h.infix hin
  rw [List.chain'_cons'] at h2
  exact h2.1 '_' (by simp) ⟨rfl, rfl⟩

theorem beforeLastDot_urlToFilename (u stem : GoString)
    (he : urlToFilename u =
      stem ++ (getFileExtension (stringsToLower u)).takeWhile (fun c => c != '?'))
    (hmem : ∀ c ∈ stem, isNameChar c = true) :
    beforeLastDot (urlToFilename u) = stem := by
  have hdot : '.' ∉ stem := fun h => isNameChar_ne_dot _ (hmem _ h) rfl
  rcases filepathExt_shape (stringsToLower u) with hx | ⟨r, hx, hr, _⟩
  · have hx2 : getFileExtension (stringsToLower u) = [] := hx
    rw [he, hx2]
    simpa using beforeLastDot_no_dot stem hdot
  · have hx2 : getFileExtension (stringsToLower u) = '.' :: r := hx
    rw [he, hx2]
    have ht : ('.' :: r).takeWhile (fun c => c != '?') =
        '.' :: r.takeWhile (fun c => c != '?') := by
      simp [List.takeWhile_cons]
    rw [ht]
    apply beforeLastDot_append
    intro h
    exact hr ((List.takeWhile_sublist _).subset h)

/-- C3: a returned name holds no `?`; its part before the last dot (all of it
when there is no dot) is made of `[a-z0-9_]`, does not start with an underscore
and has no two underscores in a row.  For
`https://EXAMPLE.com/Path/File Name.PDF?x=1` the name is
`file_name_pdf_x_1.pdf`: only runes of `[a-z0-9_.]`, no doubled underscore, and
the ending `.pdf`. -/
theorem urlToFilename_safe_name (u : GoString) :
    '?' ∉ urlToFilename u ∧
    (∀ c ∈ beforeLastDot (urlToFilename u), isNameChar c = true) ∧
    (beforeLastDot (urlToFilename u)).head? ≠ some '_' ∧
    NoDoubleUnderscore (beforeLastDot (urlToFilename u)) ∧
    urlToFilename "https://EXAMPLE.com/Path/File Name.PDF?x=1".toList =
      "file_name_pdf_x_1.pdf".toList ∧
    (∀ c ∈ urlToFilename "https://EXAMPLE.com/Path/File Name.PDF?x=1".toList,
      isNameChar c = true ∨ c = '.') ∧
    NoDoubleUnderscore (urlToFilename "https://EXAMPLE.com/Path/File Name.PDF?x=1".toList) ∧
    ".pdf".toList <:+ urlToFilename "https://EXAMPLE.com/Path/File Name.PDF?x=1".toList := by
  obtain ⟨stem, he, hmem, hhead, hchain, _⟩ := urlToFilename_decomp u
  have hb := beforeLastDot_urlToFilename u stem he hmem
  have hex : urlToFilename "https://EXAMPLE.com/Path/File Name.PDF?x=1".toList =
      "file_name_pdf_x_1.pdf".toList := by decide
  refine ⟨?_, ?_, ?_, ?_, hex, ?_, ?_, ?_⟩
  · rw [he]
    intro h
    rcases List.mem_append.1 h with h | h
    · exact isNameChar_ne_question _ (hmem _ h) rfl
    · have := List.mem_takeWhile_imp h
      simp at this
  · rw [hb]; exact hmem
  · rw [hb]; exact hhead
  · rw [hb]; exact noDouble_of_chain stem hchain
  · rw [hex]; decide
  · rw [hex]; unfold NoDoubleUnderscore; decide
  · rw [hex]; decide

/-! ## Re-applying `urlToFilename` -/

theorem toLowerRune_of_alnum (c : Char) (h : isLowerAlnum c = true) : toLowerRune c = c := by
  unfold isLowerAlnum at h
  simp only [Bool.or_eq_true, Bool.and_eq_true, decide_eq_true_eq] at h
  unfold toLowerRune
  rw [if_pos (by omega), if_neg (by omega)]

theorem ofNat_toNat_cases (m : Nat) : (Char.ofNat m).toNat = m ∨ (Char.ofNat m).toNat = 0 := by
  unfold Char.ofNat
  by_cases h : m.isValidChar
  · left
    rw [dif_pos h]
    rfl
  · right
    rw [dif_neg h]
    rfl

theorem lowerInRanges_ge (c : Nat) (hc : 97 ≤ c) (ranges : List (Nat × Nat × Nat × Nat))
    (h : ∀ e ∈ ranges, 97 ≤ e.2.2.2) : 97 ≤ lowerInRanges c ranges := by
  induction ranges with
  | nil => exact hc
  | cons e es ih =>
    obtain ⟨lo, hi, stride, target⟩ := e
    have h1 : 97 ≤ target := h (lo, hi, stride, target) (List.mem_cons_self _ _)
    unfold lowerInRanges
    split
    · omega
    · exact ih (fun e he => h e (List.mem_cons_of_mem _ he))

set_option maxRecDepth 20000 in
theorem lowerCaseRanges_ge : ∀ e ∈ lowerCaseRanges, 97 ≤ e.2.2.2 := by
  decide

/-- Lower-casing never yields a rune below `a` that was not there before: no
`.`, `/` or `?` is made. -/
theorem toLowerRune_eq_low (c d : Char) (hd : d.toNat < 97) (hd0 : d.toNat ≠ 0)
    (h : toLowerRune c = d) : c = d := by
  have key : ∀ m : Nat, 97 ≤ m → Char.ofNat m ≠ d := by
    intro m hm e
    have := ofNat_toNat_cases m
    rw [e] at this
    omega
  unfold toLowerRune at h
  by_cases ha : c.toNat < 128
  · rw [if_pos ha] at h
    by_cases hr : 65 ≤ c.toNat ∧ c.toNat ≤ 90
    · rw [if_pos hr] at h
      exact absurd h (key _ (by omega))
    · rw [if_neg hr] at h; exact h
  · rw [if_neg ha] at h
    exact absurd h (key _ (lowerInRanges_ge _ (by omega) _ lowerCaseRanges_ge))

theorem extLoop_no_dot (rev : GoString) (h : '.' ∉ rev) :
    ∀ acc : GoString, extLoop rev acc = [] := by
  induction rev with
  | nil => intro acc; rfl
  | cons c rev ih =>
    intro acc
    have hc : c ≠ '.' := fun e => h (by simp [e])
    by_cases hs : c = '/'
    · simp [extLoop, hs]
    · simp only [extLoop, hs, hc, if_false]
      exact ih (fun hm => h (List.mem_cons_of_mem _ hm)) _

theorem filepathExt_no_dot (s : GoString) (h : '.' ∉ s) : filepathExt s = [] :=
  extLoop_no_dot s.reverse (fun hm => h (List.mem_reverse.1 hm)) []

theorem pathBase_of_no_slash (s : GoString) (hne : s ≠ []) (h : '/' ∉ s) : pathBase s = s := by
  have h1 : s.reverse.dropWhile (fun c => c == '/') = s.reverse := by
    cases hr : s.reverse with
    | nil => rfl
    | cons c cs =>
      have hc : c ≠ '/' := by
        intro e
        apply h
        rw [← List.mem_reverse, hr, e]
        exact List.mem_cons_self _ _
      have hb : (c == '/') = false := by simpa using hc
      simp [List.dropWhile, hb]
  have h2 : s.reverse.takeWhile (fun c => c != '/') = s.reverse := by
    rw [List.takeWhile_eq_self_iff]
    intro c hc
    have : c ≠ '/' := fun e => h (by rw [← e]; exact List.mem_reverse.1 hc)
    simpa using this
  simp [pathBase, hne, h1, h2]

/-- A name made of `[a-z0-9]` only is returned as it is. -/
theorem urlToFilename_of_alnum (s : GoString) (h : ∀ c ∈ s, isLowerAlnum c = true) :
    urlToFilename s = s := by
  by_cases hne : s = []
  · subst hne; decide
  · have hlow : stringsToLower s = s := by
      unfold stringsToLower
      conv_rhs => rw [← List.map_id s]
      exact List.map_congr_left (fun c hc => toLowerRune_of_alnum c (h c hc))
    have hno : ∀ d : Char, isLowerAlnum d = false → d ∉ s := by
      intro d hd hm
      rw [h d hm] at hd
      exact absurd hd (by decide)
    have hext : getFileExtension s = [] := filepathExt_no_dot s (hno '.' (by decide))
    have hbase : getFileNameOnly s = s := pathBase_of_no_slash s hne (hno '/' (by decide))
    have h1 : nonAlphanumericRegex.replaceAllString s ['_'] = s :=
      replaceAllString_plus_id _ s ['_'] (fun c hc => by simp [h c hc])
    have hus : '_' ∉ s := hno '_' (by decide)
    have h2 : collapseUnderscoresRegex.replaceAllString s ['_'] = s :=
      replaceAllString_plus_id _ s ['_'] (fun c hc => by
        have : c ≠ '_' := fun e => hus (e ▸ hc)
        simpa using this)
    have h3 : (match stringsCutPrefix s ['_'] with
        | (trimmed, true) => trimmed
        | (_, false) => s) = s := by
      rw [cutPrefix_underscore, if_neg]
      intro hh
      exact hus (List.mem_of_mem_head? hh)
    have h4 : s.filter (fun c => c != '_') = s := by
      rw [List.filter_eq_self]
      intro c hc
      have : c ≠ '_' := fun e => hus (e ▸ hc)
      simpa using this
    have h5 : s.takeWhile (fun c => c != '?') = s := by
      rw [List.takeWhile_eq_self_iff]
      intro c hc
      have : c ≠ '?' := fun e => hno '?' (by decide) (e ▸ hc)
      simpa using this
    unfold urlToFilename
    simp only [hlow, hext, hbase, h1, h2, h3, removeSubstring_underscore, h4,
      List.append_nil, trimAfterQuestionMark_eq, h5]

theorem toLowerRune_eq_dot (c : Char) (h : toLowerRune c = '.') : c = '.' :=
  toLowerRune_eq_low c '.' (by decide) (by decide) h

theorem stringsToLower_no_dot (u : GoString) (h : '.' ∉ u) : '.' ∉ stringsToLower u := by
  intro hm
  unfold stringsToLower at hm
  rw [List.mem_map] at hm
  obtain ⟨c, hc, he⟩ := hm
  rw [toLowerRune_eq_dot c he] at hc
  exact h hc

/-- C9: on a URL without `.` and without `?` a second application of
`urlToFilename` changes nothing, and a non-empty name made of `[a-z0-9]` only
is returned as it is. -/
theorem urlToFilename_idempotent_common (u s : GoString)
    (hdot : '.' ∉ u) (_hq : '?' ∉ u) (_hs : s ≠ []) (hal : ∀ c ∈ s, isLowerAlnum c = true) :
    urlToFilename (urlToFilename u) = urlToFilename u ∧ urlToFilename s = s := by
  refine ⟨?_, urlToFilename_of_alnum s hal⟩
  obtain ⟨stem, he, _, _, _, hal2⟩ := urlToFilename_decomp u
  have hx : getFileExtension (stringsToLower u) = [] :=
    filepathExt_no_dot _ (stringsToLower_no_dot u hdot)
  rw [hx] at he
  simp only [List.takeWhile_nil, List.append_nil] at he
  rw [he]
  exact urlToFilename_of_alnum stem (hal2 hx)

theorem urlToFilename_idempotent_common_witness :
    ('.' ∉ "Assets/My File".toList ∧ '?' ∉ "Assets/My File".toList ∧
      "abc1".toList ≠ [] ∧ ∀ c ∈ "abc1".toList, isLowerAlnum c = true) ∧
    urlToFilename (urlToFilename "Assets/My File".toList) =
      urlToFilename "Assets/My File".toList ∧
    urlToFilename "abc1".toList = "abc1".toList :=
  ⟨⟨by decide, by decide, by decide, by decide⟩,
   urlToFilename_idempotent_common "Assets/My File".toList "abc1".toList
     (by decide) (by decide) (by decide) (by decide)⟩

/-! ## General facts about the matcher -/

theorem mem_greedyCuts (r m : GoString) : m ∈ greedyCuts r ↔ m <+: r := by
  induction r generalizing m with
  | nil => simp [greedyCuts]
  | cons c cs ih =>
    simp only [greedyCuts, List.mem_append, List.mem_map, List.mem_singleton]
    constructor
    · rintro (⟨a, ha, rfl⟩ | rfl)
      · exact List.cons_prefix_cons.2 ⟨rfl, (ih a).1 ha⟩
      · exact List.nil_prefix
    · intro h
      cases m with
      | nil => right; rfl
      | cons d ds =>
        obtain ⟨h1, h2⟩ := List.cons_prefix_cons.1 h
        left; exact ⟨ds, (ih ds).2 h2, by rw [h1]⟩

theorem mem_greedyCuts_dropLast (r m : GoString) (h : m ∈ (greedyCuts r).dropLast) :
    m <+: r ∧ m ≠ [] := by
  cases r with
  | nil => simp [greedyCuts] at h
  | cons c cs =>
    simp only [greedyCuts, List.dropLast_concat, List.mem_map] at h
    obtain ⟨a, ha, rfl⟩ := h
    exact ⟨List.cons_prefix_cons.2 ⟨rfl, (mem_greedyCuts cs a).1 ha⟩, by simp⟩

theorem prefix_takeWhile (p : Char → Bool) (s m : GoString) (h : m <+: s.takeWhile p) :
    m <+: s ∧ ∀ c ∈ m, p c = true :=
  ⟨h.trans (List.takeWhile_prefix p), fun _ hc => List.mem_takeWhile_imp (h.subset hc)⟩

theorem append_drop_of_pre (m s : GoString) (h : m <+: s) : m ++ s.drop m.length = s := by
  obtain ⟨t, rfl⟩ := h
  simp

/-- A thread splits the input into the matched text and the rest. -/
theorem threads_split (re : Regex) :
    ∀ (s : GoString) (t : Thread), t ∈ re.threads s → s = t.matched ++ t.rest := by
  induction re with
  | lit x =>
    intro s t ht
    simp only [Regex.threads] at ht
    by_cases hp : x.isPrefixOf s = true
    · simp only [hp, if_true, List.mem_singleton] at ht
      subst ht
      exact (append_drop_of_pre x s (List.isPrefixOf_iff_prefix.1 hp)).symm
    · simp [hp] at ht
  | star p =>
    intro s t ht
    simp only [Regex.threads, List.mem_map] at ht
    obtain ⟨m, hm, rfl⟩ := ht
    have := prefix_takeWhile p s m ((mem_greedyCuts _ m).1 hm)
    exact (append_drop_of_pre m s this.1).symm
  | plus p =>
    intro s t ht
    simp only [Regex.threads, List.mem_map] at ht
    obtain ⟨m, hm, rfl⟩ := ht
    have := prefix_takeWhile p s m (mem_greedyCuts_dropLast _ m hm).1
    exact (append_drop_of_pre m s this.1).symm
  | alt a b iha ihb =>
    intro s t ht
    simp only [Regex.threads, List.mem_append] at ht
    rcases ht with ht | ht
    · exact iha s t ht
    · exact ihb s t ht
  | seq a b iha ihb =>
    intro s t ht
    simp only [Regex.threads, List.mem_flatMap, List.mem_map] at ht
    obtain ⟨t1, h1, t2, h2, rfl⟩ := ht
    rw [iha s t1 h1, ihb t1.rest t2 h2]
    simp
  | group a iha =>
    intro s t ht
    simp only [Regex.threads, List.mem_map] at ht
    obtain ⟨t1, h1, rfl⟩ := ht
    exact iha s t1 h1

/-- What `search` finds is a thread at the position behind the skipped text. -/
theorem search_sound (re : Regex) :
    ∀ (s sk : GoString) (t : Thread), re.search s = some (sk, t) →
      ∃ s1, s = sk ++ s1 ∧ t ∈ re.threads s1 := by
  intro s
  induction s with
  | nil =>
    intro sk t h
    simp only [Regex.search, Option.map_eq_some'] at h
    obtain ⟨t1, h1, h2⟩ := h
    injection h2 with h3 h4
    subst h3; subst h4
    exact ⟨[], rfl, List.mem_of_mem_head? h1⟩
  | cons c cs ih =>
    intro sk t h
    rw [Regex.search] at h
    cases hh : (re.threads (c :: cs)).head? with
    | some t1 =>
      simp only [hh, Option.some.injEq, Prod.mk.injEq] at h
      obtain ⟨h3, h4⟩ := h
      subst h3; subst h4
      exact ⟨c :: cs, rfl, List.mem_of_mem_head? hh⟩
    | none =>
      simp only [hh, Option.map_eq_some'] at h
      obtain ⟨r, hr, h2⟩ := h
      injection h2 with h3 h4
      subst h3; subst h4
      obtain ⟨s1, hs1, ht⟩ := ih r.1 r.2 (by simp [hr])
      exact ⟨s1, by simp [hs1], ht⟩

/-- Every match reported by the scan is a thread at some position of the
input. -/
theorem scan_sound (re : Regex) :
    ∀ (fuel : Nat) (b : Bool) (s w : GoString) (cap : Option GoString),
      Piece.hit w cap ∈ re.scan fuel b s →
      ∃ pre s1 t, s = pre ++ s1 ∧ t ∈ re.threads s1 ∧ t.matched = w ∧ t.capture = cap := by
  intro fuel
  induction fuel with
  | zero => intro b s w cap h; simp [Regex.scan] at h
  | succ n ih =>
    intro b s w cap h
    rw [Regex.scan] at h
    cases hs : re.search s with
    | none => simp [hs] at h
    | some r =>
      obtain ⟨sk, t⟩ := r
      obtain ⟨s1, hs1, ht⟩ := search_sound re s sk t hs
      have hsplit := threads_split re s1 t ht
      simp only [hs] at h
      by_cases hm : t.matched = []
      · simp only [hm, if_true] at h
        have key : Piece.hit w cap ∈ (if sk = [] ∧ b = true then []
            else [Piece.hit [] t.capture]) → w = t.matched ∧ cap = t.capture := by
          intro hx
          by_cases hc : sk = [] ∧ b = true
          · simp [hc] at hx
          · simp only [hc, if_false, List.mem_singleton, Piece.hit.injEq] at hx
            exact ⟨by rw [hm]; exact hx.1, hx.2⟩
        cases hr : t.rest with
        | nil =>
          simp only [hr, List.mem_append, List.mem_map, reduceCtorEq, and_false,
            exists_false, false_or] at h
          obtain ⟨e1, e2⟩ := key h
          exact ⟨sk, s1, t, hs1, ht, e1.symm, e2.symm⟩
        | cons c cs =>
          simp only [hr, List.mem_append, List.mem_map, reduceCtorEq, and_false,
            exists_false, false_or, List.mem_cons] at h
          rcases h with h | h
          · obtain ⟨e1, e2⟩ := key h
            exact ⟨sk, s1, t, hs1, ht, e1.symm, e2.symm⟩
          · obtain ⟨pre, s2, t2, h1, h2, h3, h4⟩ := ih false cs w cap h
            refine ⟨sk ++ t.matched ++ c :: pre, s2, t2, ?_, h2, h3, h4⟩
            rw [hs1, hsplit, hr, h1]; simp
      · simp only [hm, if_false, List.mem_append, List.mem_map, reduceCtorEq, and_false,
          exists_false, false_or, List.mem_cons, Piece.hit.injEq] at h
        rcases h with ⟨e1, e2⟩ | h
        · exact ⟨sk, s1, t, hs1, ht, e1.symm, e2.symm⟩
        · obtain ⟨pre, s2, t2, h1, h2, h3, h4⟩ := ih true t.rest w cap h
          refine ⟨sk ++ t.matched ++ pre, s2, t2, ?_, h2, h3, h4⟩
          rw [hs1, hsplit, h1]; simp

/-! ## The pattern of `extractFileUrls` -/

theorem mem_threads_lit (x s : GoString) (t : Thread) (h : t ∈ (Regex.lit x).threads s) :
    x <+: s ∧ t = ⟨x, none, s.drop x.length⟩ := by
  simp only [Regex.threads] at h
  by_cases hp : x.isPrefixOf s = true
  · simp only [hp, if_true, List.mem_singleton] at h
    exact ⟨List.isPrefixOf_iff_prefix.1 hp, h⟩
  · simp [hp] at h

theorem mem_threads_seq (a b : Regex) (s : GoString) (t : Thread)
    (h : t ∈ (Regex.seq a b).threads s) :
    ∃ t1 ∈ a.threads s, ∃ t2 ∈ b.threads t1.rest,
      t = ⟨t1.matched ++ t2.matched,
        (match t1.capture with
          | some c => some c
          | none => t2.capture), t2.rest⟩ := by
  simp only [Regex.threads, List.mem_flatMap, List.mem_map] at h
  obtain ⟨t1, h1, t2, h2, rfl⟩ := h
  exact ⟨t1, h1, t2, h2, rfl⟩

theorem mem_threads_group (a : Regex) (s : GoString) (t : Thread)
    (h : t ∈ (Regex.group a).threads s) :
    ∃ t1 ∈ a.threads s, t = ⟨t1.matched, some t1.matched, t1.rest⟩ := by
  simp only [Regex.threads, List.mem_map] at h
  obtain ⟨t1, h1, rfl⟩ := h
  exact ⟨t1, h1, rfl⟩

theorem mem_threads_plus (p : Char → Bool) (s : GoString) (t : Thread)
    (h : t ∈ (Regex.plus p).threads s) :
    ∃ m, m <+: s ∧ (∀ c ∈ m, p c = true) ∧ m ≠ [] ∧ t = ⟨m, none, s.drop m.length⟩ := by
  simp only [Regex.threads, List.mem_map] at h
  obtain ⟨m, hm, rfl⟩ := h
  obtain ⟨h1, h2⟩ := mem_greedyCuts_dropLast _ m hm
  obtain ⟨h3, h4⟩ := prefix_takeWhile p s m h1
  exact ⟨m, h3, h4, h2, rfl⟩

theorem mem_threads_star (p : Char → Bool) (s : GoString) (t : Thread)
    (h : t ∈ (Regex.star p).threads s) :
    ∃ m, m <+: s ∧ (∀ c ∈ m, p c = true) ∧ t = ⟨m, none, s.drop m.length⟩ := by
  simp only [Regex.threads, List.mem_map] at h
  obtain ⟨m, hm, rfl⟩ := h
  obtain ⟨h3, h4⟩ := prefix_takeWhile p s m ((mem_greedyCuts _ m).1 hm)
  exact ⟨m, h3, h4, rfl⟩

theorem mem_threads_extension (s : GoString) (t : Thread)
    (h : t ∈ extensionAlternation.threads s) :
    ∃ e ∈ supportedExtensions, e <+: s ∧ t = ⟨e, none, s.drop e.length⟩ := by
  simp only [extensionAlternation, Regex.threads, List.mem_append] at h
  have key : ∀ x : GoString, x ∈ supportedExtensions →
      t ∈ (if x.isPrefixOf s = true then [(⟨x, none, s.drop x.length⟩ : Thread)] else []) →
      ∃ e ∈ supportedExtensions, e <+: s ∧ t = ⟨e, none, s.drop e.length⟩ := by
    intro x hx ht
    have := mem_threads_lit x s t (by simpa [Regex.threads] using ht)
    exact ⟨x, hx, this.1, this.2⟩
  rcases h with h | h | h | h | h | h | h | h | h | h
  all_goals first
    | exact key _ (by decide) h

/-- A thread of the link pattern: the input starts with `href="`, a value
without a quote and the closing quote; the value is the capture and holds a
supported extension. -/
theorem fileLinkRegex_sound (s : GoString) (t : Thread) (h : t ∈ fileLinkRegex.threads s) :
    ∃ g rest, s = "href=\"".toList ++ g ++ '"' :: rest ∧ '"' ∉ g ∧
      HasSupportedExtension g ∧
      t = ⟨"href=\"".toList ++ (g ++ ['"']), some g, rest⟩ := by
  unfold fileLinkRegex at h
  obtain ⟨t1, h1, t2, h2, rfl⟩ := mem_threads_seq _ _ s t h
  obtain ⟨hp, rfl⟩ := mem_threads_lit _ s t1 h1
  obtain ⟨t3, h3, t4, h4, rfl⟩ := mem_threads_seq _ _ _ t2 h2
  obtain ⟨t5, h5, rfl⟩ := mem_threads_group _ _ t3 h3
  obtain ⟨h4p, rfl⟩ := mem_threads_lit _ _ t4 h4
  obtain ⟨t6, h6, t7, h7, rfl⟩ := mem_threads_seq _ _ _ t5 h5
  obtain ⟨t8, h8, t9, h9, rfl⟩ := mem_threads_seq _ _ _ t7 h7
  obtain ⟨h8p, rfl⟩ := mem_threads_lit _ _ t8 h8
  obtain ⟨ta, ha, tb, hb, rfl⟩ := mem_threads_seq _ _ _ t9 h9
  obtain ⟨e, he, hep, rfl⟩ := mem_threads_extension _ ta ha
  obtain ⟨x, hxs, hxq, hxne, rfl⟩ := mem_threads_plus _ _ t6 h6
  obtain ⟨y, hys, hyq, rfl⟩ := mem_threads_star _ _ tb hb
  simp only [] at h4p h8p hep hys hxs ⊢
  have e1 := append_drop_of_pre _ _ hp
  have e2 := append_drop_of_pre _ _ hxs
  have e3 := append_drop_of_pre _ _ h8p
  have e4 := append_drop_of_pre _ _ hep
  have e5 := append_drop_of_pre _ _ hys
  have e6 := append_drop_of_pre _ _ h4p
  generalize List.drop y.length _ = r5 at e5 e6 h4p ⊢
  generalize List.drop ("\"".toList).length r5 = r6 at e6 ⊢
  generalize List.drop e.length _ = r4 at e4 e5
  generalize List.drop (".".toList).length _ = r3 at e3 e4
  generalize List.drop x.length _ = r2 at e2 e3
  generalize List.drop ("href=\"".toList).length s = r1 at e1 e2
  refine ⟨x ++ '.' :: (e ++ y), r6, ?_, ?_, ⟨x, e, y, rfl, hxne, he⟩, ?_⟩
  · rw [← e1, ← e2, ← e3, ← e4, ← e5, ← e6]
    simp
  · have hq : ∀ e ∈ supportedExtensions, ∀ c ∈ e, c ≠ '"' := by decide
    intro hm
    simp only [List.mem_append, List.mem_cons] at hm
    rcases hm with hm | hm | hm | hm
    · have := hxq _ hm; simp [notQuote] at this
    · exact absurd hm (by decide)
    · exact hq e he _ hm rfl
    · have := hyq _ hm; simp [notQuote] at this
  · simp

/-! ## Scanning with a pattern that never matches the empty text -/

theorem search_length (re : Regex) (hne : ∀ s t, t ∈ re.threads s → t.matched ≠ [])
    (s sk : GoString) (t : Thread) (h : re.search s = some (sk, t)) :
    t.matched ≠ [] ∧ sk.length + t.rest.length < s.length := by
  obtain ⟨s1, hs1, ht⟩ := search_sound re s sk t h
  have hm := hne s1 t ht
  have hsp := threads_split re s1 t ht
  refine ⟨hm, ?_⟩
  have hl : 0 < t.matched.length := List.length_pos.2 hm
  rw [hs1, hsp]
  simp only [List.length_append]
  omega

/-- The result of a scan does not depend on the fuel once there is more of it
than runes, nor on the flag. -/
theorem scan_fuel (re : Regex) (hne : ∀ s t, t ∈ re.threads s → t.matched ≠ []) :
    ∀ (n1 n2 : Nat) (b1 b2 : Bool) (s : GoString), s.length < n1 → s.length < n2 →
      re.scan n1 b1 s = re.scan n2 b2 s := by
  intro n1
  induction n1 with
  | zero => intro n2 b1 b2 s h; omega
  | succ k ih =>
    intro n2 b1 b2 s h1 h2
    cases n2 with
    | zero => omega
    | succ j =>
      rw [Regex.scan, Regex.scan]
      cases hs : re.search s with
      | none => rfl
      | some r =>
        obtain ⟨sk, t⟩ := r
        obtain ⟨hm, hl⟩ := search_length re hne s sk t hs
        simp only [hm, if_false]
        rw [ih j true true t.rest (by omega) (by omega)]

theorem pieces_nil (re : Regex) (hne : ∀ s t, t ∈ re.threads s → t.matched ≠ []) :
    re.pieces [] = [] := by
  have h : re.threads [] = [] := by
    rw [List.eq_nil_iff_forall_not_mem]
    intro t ht
    have h1 := threads_split re [] t ht
    have h2 := hne [] t ht
    have h3 : t.matched = [] := (List.append_eq_nil.1 h1.symm).1
    exact h2 h3
  simp [Regex.pieces, Regex.scan, Regex.search, h]

theorem pieces_skip (re : Regex) (hne : ∀ s t, t ∈ re.threads s → t.matched ≠ [])
    (c : Char) (cs : GoString) (h : re.threads (c :: cs) = []) :
    re.pieces (c :: cs) = Piece.rune c :: re.pieces cs := by
  have hs : re.search (c :: cs) = (re.search cs).map (fun r => (c :: r.1, r.2)) := by
    rw [Regex.search, h]; rfl
  unfold Regex.pieces
  rw [List.length_cons, Regex.scan, Regex.scan, hs]
  cases hc : re.search cs with
  | none => rfl
  | some r =>
    obtain ⟨sk, t⟩ := r
    obtain ⟨hm, hl⟩ := search_length re hne cs sk t hc
    simp only [Option.map_some', hm, if_false, List.map_cons, List.cons_append]
    rw [scan_fuel re hne (cs.length + 1) cs.length true true t.rest (by omega) (by omega)]

theorem pieces_hit (re : Regex) (hne : ∀ s t, t ∈ re.threads s → t.matched ≠ [])
    (s : GoString) (t : Thread) (h : (re.threads s).head? = some t) :
    re.pieces s = Piece.hit t.matched t.capture :: re.pieces t.rest := by
  have hs : re.search s = some ([], t) := by
    cases s with
    | nil => simp [Regex.search, h]
    | cons c cs => simp [Regex.search, h]
  obtain ⟨hm, hl⟩ := search_length re hne s [] t hs
  unfold Regex.pieces
  rw [Regex.scan, hs]
  simp only [hm, if_false, List.map_nil, List.nil_append]
  rw [scan_fuel re hne s.length (t.rest.length + 1) true false t.rest
    (by simpa using hl) (by omega)]

/-! ## `extractFileUrls` -/

theorem fileLinkRegex_nonempty :
    ∀ (s : GoString) (t : Thread), t ∈ fileLinkRegex.threads s → t.matched ≠ [] := by
  intro s t ht
  obtain ⟨g, rest, _, _, _, rfl⟩ := fileLinkRegex_sound s t ht
  simp

theorem extract_foldl (ms : List (List GoString)) :
    ∀ init : List GoString,
      ms.foldl (fun fileLinks m =>
          if 1 < m.length then fileLinks ++ [m.getD 1 []] else fileLinks) init =
        init ++ ms.filterMap (fun m => if 1 < m.length then some (m.getD 1 []) else none) := by
  induction ms with
  | nil => intro init; simp
  | cons m ms ih =>
    intro init
    rw [List.foldl_cons, ih]
    by_cases hm : 1 < m.length
    · simp [hm, List.filterMap_cons]
    · simp [hm, List.filterMap_cons]

/-- The links are the captures of the matches, in the order of the scan. -/
theorem extractFileUrls_eq (input : GoString) :
    extractFileUrls input =
      (fileLinkRegex.pieces input).filterMap (fun p =>
        match p with
        | Piece.rune _ => none
        | Piece.hit _ cap => some (cap.getD [])) := by
  unfold extractFileUrls Regex.findAllStringSubmatch
  simp only []
  rw [extract_foldl, List.nil_append, List.filterMap_filterMap]
  congr 1
  funext p
  cases p with
  | rune c => rfl
  | hit w cap => simp

theorem extractFileUrls_nil : extractFileUrls [] = [] := by
  rw [extractFileUrls_eq, pieces_nil _ fileLinkRegex_nonempty]; rfl

theorem extractFileUrls_skip (c : Char) (cs : GoString)
    (h : fileLinkRegex.threads (c :: cs) = []) :
    extractFileUrls (c :: cs) = extractFileUrls cs := by
  rw [extractFileUrls_eq, extractFileUrls_eq, pieces_skip _ fileLinkRegex_nonempty c cs h]
  rfl

theorem extractFileUrls_hit (s : GoString) (t : Thread)
    (h : (fileLinkRegex.threads s).head? = some t) :
    extractFileUrls s = t.capture.getD [] :: extractFileUrls t.rest := by
  rw [extractFileUrls_eq, extractFileUrls_eq, pieces_hit _ fileLinkRegex_nonempty s t h]
  rfl

/-- Every link returned is the quoted value of an `href="..."` of the input. -/
theorem extractFileUrls_sound (input v : GoString) (h : v ∈ extractFileUrls input) :
    ("href=\"".toList ++ v ++ ['"']) <:+: input ∧ '"' ∉ v ∧ HasSupportedExtension v := by
  rw [extractFileUrls_eq, List.mem_filterMap] at h
  obtain ⟨p, hp, hv⟩ := h
  cases p with
  | rune c => simp at hv
  | hit w cap =>
    simp only [Option.some.injEq] at hv
    obtain ⟨pre, s1, t, hs, ht, _, hcap⟩ := scan_sound fileLinkRegex _ _ input w cap hp
    obtain ⟨g, rest, hs1, hq, hext, rfl⟩ := fileLinkRegex_sound s1 t ht
    simp only [] at hcap
    rw [← hcap] at hv
    simp only [Option.getD_some] at hv
    subst hv
    refine ⟨⟨pre, rest, ?_⟩, hq, hext⟩
    rw [hs, hs1]
    simp

theorem plus_nonempty (p : Char → Bool) :
    ∀ (s : GoString) (t : Thread), t ∈ (Regex.plus p).threads s → t.matched ≠ [] := by
  intro s t ht
  obtain ⟨m, _, _, hm, rfl⟩ := mem_threads_plus p s t ht
  exact hm

/-- For the three patterns of the program the fuel of `pieces` is enough: more
fuel gives the same pieces. -/
theorem pieces_fuel_enough (n : Nat) (b : Bool) (s : GoString) (h : s.length < n) :
    nonAlphanumericRegex.scan n b s = nonAlphanumericRegex.pieces s ∧
    collapseUnderscoresRegex.scan n b s = collapseUnderscoresRegex.pieces s ∧
    fileLinkRegex.scan n b s = fileLinkRegex.pieces s :=
  ⟨scan_fuel _ (plus_nonempty _) n (s.length + 1) b false s h (Nat.lt_succ_self _),
   scan_fuel _ (plus_nonempty _) n (s.length + 1) b false s h (Nat.lt_succ_self _),
   scan_fuel _ fileLinkRegex_nonempty n (s.length + 1) b false s h (Nat.lt_succ_self _)⟩

/-! ## Text between the links -/

theorem threads_nil_of_no_href (s : GoString) (h : ¬ "href=\"".toList <+: s) :
    fileLinkRegex.threads s = [] := by
  rw [List.eq_nil_iff_forall_not_mem]
  intro t ht
  obtain ⟨g, rest, hs, _, _, _⟩ := fileLinkRegex_sound s t ht
  apply h
  rw [hs, List.append_assoc]
  exact List.prefix_append _ _

theorem extractFileUrls_skip_run (pre : GoString) :
    ∀ R : GoString,
      (∀ t : GoString, t ≠ [] → t <:+ pre → ¬ "href=\"".toList <+: t ++ R) →
      extractFileUrls (pre ++ R) = extractFileUrls R := by
  induction pre with
  | nil => intro R _; rfl
  | cons c cs ih =>
    intro R h
    rw [List.cons_append, extractFileUrls_skip c (cs ++ R)
      (threads_nil_of_no_href _ (h (c :: cs) (by simp) (List.suffix_refl _)))]
    exact ih R (fun t ht hs => h t ht (hs.trans (List.suffix_cons c cs)))

/-- No `href="` begins inside text that holds none when the next text is empty
or begins with `h`. -/
theorem no_straddle (sep R t : GoString) (hsep : ¬ "href=\"".toList <:+: sep)
    (hR : R = [] ∨ R.head? = some 'h') (hne : t ≠ []) (hsuf : t <:+ sep) :
    ¬ "href=\"".toList <+: t ++ R := by
  intro hp
  by_cases hl : "href=\"".toList.length ≤ t.length
  · have h1 : "href=\"".toList <+: t :=
      List.prefix_of_prefix_length_le hp (List.prefix_append t R) hl
    exact hsep (h1.isInfix.trans hsuf.isInfix)
  · have hl2 : t.length < 6 := by simpa using hl
    have hchars : "href=\"".toList = ['h', 'r', 'e', 'f', '=', '"'] := by decide
    rw [hchars] at hp
    rcases hR with rfl | hR
    · rw [List.append_nil] at hp
      have := hp.length_le
      simp at this
      omega
    · cases R with
      | nil => simp at hR
      | cons r R2 =>
        simp only [List.head?_cons, Option.some.injEq] at hR
        subst hR
        rcases t with _ | ⟨c1, _ | ⟨c2, _ | ⟨c3, _ | ⟨c4, _ | ⟨c5, _ | ⟨c6, t6⟩⟩⟩⟩⟩⟩
        · exact hne rfl
        · simp [List.cons_prefix_cons] at hp
        · simp [List.cons_prefix_cons] at hp
        · simp [List.cons_prefix_cons] at hp
        · simp [List.cons_prefix_cons] at hp
        · simp [List.cons_prefix_cons] at hp
        · simp only [List.length_cons] at hl2; omega

theorem no_infix_of_no_h (a b : GoString) (ha : 'h' ∉ a) (hb : ¬ "href=\"".toList <:+: b) :
    ¬ "href=\"".toList <:+: a ++ b := by
  induction a with
  | nil => simpa using hb
  | cons c cs ih =>
    intro h
    rw [List.cons_append, List.infix_cons_iff] at h
    rcases h with h | h
    · have hchars : "href=\"".toList = ['h', 'r', 'e', 'f', '=', '"'] := by decide
      rw [hchars, List.cons_prefix_cons] at h
      exact ha (by rw [h.1]; exact List.mem_cons_self _ _)
    · exact ih (fun hm => ha (List.mem_cons_of_mem _ hm)) h

/-- Text without `href="` in front of a link or of the end of the input adds
no link. -/
theorem extractFileUrls_skip_sep (sep R : GoString) (hsep : ¬ "href=\"".toList <:+: sep)
    (hR : R = [] ∨ R.head? = some 'h') :
    extractFileUrls (sep ++ R) = extractFileUrls R :=
  extractFileUrls_skip_run sep R (fun t hne hsuf => no_straddle sep R t hsep hR hne hsuf)

theorem extract_at_a_pdf (R : GoString) :
    extractFileUrls ("href=\"a.pdf\"".toList ++ R) = "a.pdf".toList :: extractFileUrls R := by
  have h : (fileLinkRegex.threads ("href=\"a.pdf\"".toList ++ R)).head? =
      some ⟨"href=\"a.pdf\"".toList, some "a.pdf".toList, R⟩ := by
    simp [fileLinkRegex, extensionAlternation, Regex.threads, List.isPrefixOf, notQuote,
      List.takeWhile_cons, greedyCuts]
  rw [extractFileUrls_hit _ _ h]
  rfl

theorem extract_at_b_png (R : GoString) :
    extractFileUrls ("href=\"b.png?x=1\"".toList ++ R) =
      "b.png?x=1".toList :: extractFileUrls R := by
  have h : (fileLinkRegex.threads ("href=\"b.png?x=1\"".toList ++ R)).head? =
      some ⟨"href=\"b.png?x=1\"".toList, some "b.png?x=1".toList, R⟩ := by
    simp [fileLinkRegex, extensionAlternation, Regex.threads, List.isPrefixOf, notQuote,
      List.takeWhile_cons, greedyCuts]
  rw [extractFileUrls_hit _ _ h]
  rfl

theorem extract_at_b_PNG (sep R : GoString) (hsep : ¬ "href=\"".toList <:+: sep)
    (hR : R = [] ∨ R.head? = some 'h') :
    extractFileUrls ("href=\"b.PNG?x=1\"".toList ++ (sep ++ R)) = extractFileUrls R := by
  have h : fileLinkRegex.threads ("href=\"b.PNG?x=1\"".toList ++ (sep ++ R)) = [] := by
    simp [fileLinkRegex, extensionAlternation, Regex.threads, List.isPrefixOf, notQuote,
      List.takeWhile_cons, greedyCuts]
  have hs : "href=\"b.PNG?x=1\"".toList ++ (sep ++ R) =
      'h' :: (("ref=\"b.PNG?x=1\"".toList ++ sep) ++ R) := by simp
  rw [hs] at h ⊢
  rw [extractFileUrls_skip _ _ h]
  exact extractFileUrls_skip_sep _ R (no_infix_of_no_h _ sep (by decide) hsep) hR

theorem extract_at_c_doc (sep : GoString) (hsep : ¬ "href=\"".toList <:+: sep) :
    extractFileUrls ("href=\"c.doc\"".toList ++ sep) = [] := by
  have h : fileLinkRegex.threads ("href=\"c.doc\"".toList ++ sep) = [] := by
    simp [fileLinkRegex, extensionAlternation, Regex.threads, List.isPrefixOf, notQuote,
      List.takeWhile_cons, greedyCuts]
  have hs : "href=\"c.doc\"".toList ++ sep =
      'h' :: (("ref=\"c.doc\"".toList ++ sep) ++ []) := by simp
  rw [hs] at h ⊢
  rw [extractFileUrls_skip _ _ h,
    extractFileUrls_skip_sep _ [] (no_infix_of_no_h _ sep (by decide) hsep) (Or.inl rfl)]
  exact extractFileUrls_nil

/-- C2, as the code has it: in a text that holds, in this order, `href="a.pdf"`,
`href="b.png?x=1"` and `href="c.doc"` and no other `href="`, the links found
are `a.pdf` and `b.png?x=1`, taken as they stand and in this order, and the
`.doc` link is left out.  With `href="b.PNG?x=1"` in the place of the second
link only `a.pdf` is found: the extensions are matched in lower case. -/
theorem extractFileUrls_three_links (pre m1 m2 post : GoString)
    (hpre : ¬ "href=\"".toList <:+: pre) (hm1 : ¬ "href=\"".toList <:+: m1)
    (hm2 : ¬ "href=\"".toList <:+: m2) (hpost : ¬ "href=\"".toList <:+: post) :
    extractFileUrls (pre ++ ("href=\"a.pdf\"".toList ++ (m1 ++ ("href=\"b.png?x=1\"".toList ++
      (m2 ++ ("href=\"c.doc\"".toList ++ post)))))) = ["a.pdf".toList, "b.png?x=1".toList] ∧
    extractFileUrls (pre ++ ("href=\"a.pdf\"".toList ++ (m1 ++ ("href=\"b.PNG?x=1\"".toList ++
      (m2 ++ ("href=\"c.doc\"".toList ++ post)))))) = ["a.pdf".toList] := by
  have hh : ∀ (a R : GoString), ('h' :: a ++ R).head? = some 'h' := fun _ _ => rfl
  have e3 : extractFileUrls (m2 ++ ("href=\"c.doc\"".toList ++ post)) = [] := by
    rw [extractFileUrls_skip_sep m2 ("href=\"c.doc\"".toList ++ post) hm2
      (Or.inr (hh "ref=\"c.doc\"".toList post))]
    exact extract_at_c_doc post hpost
  constructor
  · have e2 : extractFileUrls (m1 ++ ("href=\"b.png?x=1\"".toList ++
        (m2 ++ ("href=\"c.doc\"".toList ++ post)))) = ["b.png?x=1".toList] := by
      rw [extractFileUrls_skip_sep m1 ("href=\"b.png?x=1\"".toList ++
        (m2 ++ ("href=\"c.doc\"".toList ++ post))) hm1 (Or.inr (hh "ref=\"b.png?x=1\"".toList _)),
        extract_at_b_png, e3]
    rw [extractFileUrls_skip_sep pre ("href=\"a.pdf\"".toList ++ (m1 ++
      ("href=\"b.png?x=1\"".toList ++ (m2 ++ ("href=\"c.doc\"".toList ++ post))))) hpre
      (Or.inr (hh "ref=\"a.pdf\"".toList _)), extract_at_a_pdf, e2]
  · have e2 : extractFileUrls (m1 ++ ("href=\"b.PNG?x=1\"".toList ++
        (m2 ++ ("href=\"c.doc\"".toList ++ post)))) = [] := by
      rw [extractFileUrls_skip_sep m1 ("href=\"b.PNG?x=1\"".toList ++
        (m2 ++ ("href=\"c.doc\"".toList ++ post))) hm1 (Or.inr (hh "ref=\"b.PNG?x=1\"".toList _)),
        extract_at_b_PNG m2 ("href=\"c.doc\"".toList ++ post) hm2
          (Or.inr (hh "ref=\"c.doc\"".toList post))]
      exact extract_at_c_doc post hpost
    rw [extractFileUrls_skip_sep pre ("href=\"a.pdf\"".toList ++ (m1 ++
      ("href=\"b.PNG?x=1\"".toList ++ (m2 ++ ("href=\"c.doc\"".toList ++ post))))) hpre
      (Or.inr (hh "ref=\"a.pdf\"".toList _)), extract_at_a_pdf, e2]

theorem extractFileUrls_three_links_witness :
    (¬ "href=\"".toList <:+: "<a ".toList ∧ ¬ "href=\"".toList <:+: ">A</a> <a ".toList ∧
      ¬ "href=\"".toList <:+: ">B</a>\n<a ".toList ∧
      ¬ "href=\"".toList <:+: ">C</a>".toList) ∧
    extractFileUrls ("<a ".toList ++ ("href=\"a.pdf\"".toList ++ (">A</a> <a ".toList ++
      ("href=\"b.png?x=1\"".toList ++ (">B</a>\n<a ".toList ++
        ("href=\"c.doc\"".toList ++ ">C</a>".toList)))))) =
      ["a.pdf".toList, "b.png?x=1".toList] ∧
    extractFileUrls ("<a ".toList ++ ("href=\"a.pdf\"".toList ++ (">A</a> <a ".toList ++
      ("href=\"b.PNG?x=1\"".toList ++ (">B</a>\n<a ".toList ++
        ("href=\"c.doc\"".toList ++ ">C</a>".toList)))))) = ["a.pdf".toList] :=
  ⟨⟨by decide, by decide, by decide, by decide⟩,
   extractFileUrls_three_links "<a ".toList ">A</a> <a ".toList ">B</a>\n<a ".toList
     ">C</a>".toList (by decide) (by decide) (by decide) (by decide)⟩

/-- C2 fails as stated: with the upper-case `href="b.PNG?x=1"` between
`href="a.pdf"` and `href="c.doc"` the result is `["a.pdf"]`, not
`["a.pdf", "b.PNG?x=1"]`. -/
theorem extractFileUrls_upper_case_counterexample :
    extractFileUrls
        "<a href=\"a.pdf\">A</a> <a href=\"b.PNG?x=1\">B</a> <a href=\"c.doc\">C</a>".toList =
      ["a.pdf".toList] ∧
    extractFileUrls
        "<a href=\"a.pdf\">A</a> <a href=\"b.PNG?x=1\">B</a> <a href=\"c.doc\">C</a>".toList ≠
      ["a.pdf".toList, "b.PNG?x=1".toList] := by
  decide

/-- C10, as the code has it: every link returned is the quoted value of an
`href="..."` of the input, holds no quote, and holds, behind at least one rune,
a dot directly followed by a supported extension in lower case; whatever
follows the extension inside the quotes is accepted, so `a.pdfx` and
`a.txt.doc` are returned. -/
theorem extractFileUrls_values (input : GoString) :
    (∀ v ∈ extractFileUrls input,
      ("href=\"".toList ++ v ++ ['"']) <:+: input ∧ '"' ∉ v ∧ HasSupportedExtension v) ∧
    extractFileUrls "<a href=\"a.pdfx\">".toList = ["a.pdfx".toList] ∧
    extractFileUrls "<a href=\"a.txt.doc\">".toList = ["a.txt.doc".toList] :=
  ⟨fun v hv => extractFileUrls_sound input v hv, by decide, by decide⟩

/-- C10 fails as stated: `a.pdfx` is returned although its extension is
followed by a rune that starts no query string. -/
theorem extractFileUrls_trailing_text_counterexample :
    "a.pdfx".toList ∈ extractFileUrls "<a href=\"a.pdfx\">".toList ∧
    hasSupportedEnding "a.pdfx".toList = false ∧
    "a.txt.doc".toList ∈ extractFileUrls "<a href=\"a.txt.doc\">".toList ∧
    hasSupportedEnding "a.txt.doc".toList = false := by
  decide

/-! ## The extension guard and the extension of a name -/

/-- C4 (the code misses it): for `https://example.com/report.pdf.pdf` the
extension is `.pdf` and the base name becomes `report_pdf_pdf`; the name
returned is `report_pdf_pdf.pdf`, with the doubled `_pdf_pdf` still in it.  The
guard looks for `_` followed by the extension with its dot, `_.pdf`, which a
name without a dot never holds, so the guard leaves every such name as it is. -/
theorem urlToFilename_doubled_extension :
    getFileExtension (stringsToLower "https://example.com/report.pdf.pdf".toList) =
      ".pdf".toList ∧
    nonAlphanumericRegex.replaceAllString
        (getFileNameOnly (stringsToLower "https://example.com/report.pdf.pdf".toList)) ['_'] =
      "report_pdf_pdf".toList ∧
    urlToFilename "https://example.com/report.pdf.pdf".toList = "report_pdf_pdf.pdf".toList ∧
    urlToFilename "https://example.com/report.pdf.pdf".toList ≠ "report_pdf.pdf".toList ∧
    (∀ s r : GoString, (∀ c ∈ s, isNameChar c = true) →
      removeSubstring s ('_' :: '.' :: r) = s) := by
  refine ⟨by decide, by decide, by decide, by decide, ?_⟩
  intro s r hs
  exact removeSubstring_ext s r (fun h => isNameChar_ne_dot _ (hs _ h) rfl)

theorem toLowerRune_eq_question (c : Char) (h : toLowerRune c = '?') : c = '?' :=
  toLowerRune_eq_low c '?' (by decide) (by decide) h

theorem takeWhile_of_no_question (s : GoString) (h : '?' ∉ s) :
    s.takeWhile (fun c => c != '?') = s := by
  rw [List.takeWhile_eq_self_iff]
  intro c hc
  have : c ≠ '?' := fun e => h (e ▸ hc)
  simpa using this

theorem extLoop_eq (rev : GoString) :
    ∀ acc : GoString,
      extLoop rev acc =
        if '.' ∈ rev.takeWhile (fun c => c != '/') then
          '.' :: ((rev.takeWhile (fun c => c != '.')).reverse ++ acc)
        else [] := by
  induction rev with
  | nil => intro acc; simp [extLoop]
  | cons c rev ih =>
    intro acc
    by_cases hs : c = '/'
    · subst hs; simp [extLoop, List.takeWhile_cons]
    · by_cases hd : c = '.'
      · subst hd; simp [extLoop, List.takeWhile_cons]
      · have h1 : (c != '/') = true := by simpa using hs
        have h2 : (c != '.') = true := by simpa using hd
        have h3 : ¬ '.' = c := fun e => hd e.symm
        simp only [extLoop, hs, hd, if_false, ih, List.takeWhile_cons, h1, h2, if_true,
          List.mem_cons, h3, false_or, List.reverse_cons, List.append_assoc,
          List.singleton_append]

theorem takeWhile_slash_dot (r : GoString) (h : '.' ∈ r.takeWhile (fun c => c != '/')) :
    (r.takeWhile (fun c => c != '/')).takeWhile (fun c => c != '.') =
      r.takeWhile (fun c => c != '.') := by
  induction r with
  | nil => rfl
  | cons c r ih =>
    by_cases hs : c = '/'
    · subst hs; simp [List.takeWhile_cons] at h
    · have h1 : (c != '/') = true := by simpa using hs
      by_cases hd : c = '.'
      · subst hd; simp [List.takeWhile_cons]
      · have h2 : (c != '.') = true := by simpa using hd
        have h3 : ¬ '.' = c := fun e => hd e.symm
        simp only [List.takeWhile_cons, h1, if_true, List.mem_cons, h3, false_or] at h
        simp only [List.takeWhile_cons, h1, h2, if_true, ih h]

/-- The extension the code takes is the suffix from the last dot of the last
segment. -/
theorem filepathExt_eq_dotSuffix (s : GoString) :
    filepathExt s = dotSuffix (lastSegment s) := by
  unfold filepathExt dotSuffix lastSegment
  rw [extLoop_eq]
  by_cases h : '.' ∈ s.reverse.takeWhile (fun c => c != '/')
  · simp [h, takeWhile_slash_dot _ h]
  · simp [h]

theorem filepathExt_append (p q : GoString) (hd : '.' ∉ q) (hs : '/' ∉ q) :
    filepathExt (p ++ q) = if filepathExt p = [] then [] else filepathExt p ++ q := by
  have h1 : ∀ c ∈ q.reverse, (fun c => c != '/') c = true := by
    intro c hc
    have : c ≠ '/' := fun e => hs (e ▸ List.mem_reverse.1 hc)
    simpa using this
  have h2 : ∀ c ∈ q.reverse, (fun c => c != '.') c = true := by
    intro c hc
    have : c ≠ '.' := fun e => hd (e ▸ List.mem_reverse.1 hc)
    simpa using this
  have hq : '.' ∉ q.reverse := fun h => hd (List.mem_reverse.1 h)
  unfold filepathExt
  rw [extLoop_eq, extLoop_eq, List.reverse_append, List.takeWhile_append_of_pos h1,
    List.takeWhile_append_of_pos h2]
  by_cases h : '.' ∈ p.reverse.takeWhile (fun c => c != '/')
  · simp [h, hq]
  · simp [h, hq]

theorem toLowerRune_ne_iff (d : Char) (hd : d.toNat < 97) (hd0 : d.toNat ≠ 0)
    (hfix : toLowerRune d = d) (c : Char) : (toLowerRune c != d) = (c != d) := by
  by_cases h : c = d
  · subst h; simp [hfix]
  · have h2 : toLowerRune c ≠ d := fun e => h (toLowerRune_eq_low c d hd hd0 e)
    have a : (toLowerRune c != d) = true := by simpa using h2
    have b : (c != d) = true := by simpa using h
    rw [a, b]

theorem stringsToLower_takeWhile (d : Char) (hd : d.toNat < 97) (hd0 : d.toNat ≠ 0)
    (hfix : toLowerRune d = d) (s : GoString) :
    (stringsToLower s).takeWhile (fun c => c != d) =
      stringsToLower (s.takeWhile (fun c => c != d)) := by
  unfold stringsToLower
  rw [List.takeWhile_map]
  congr 2
  funext c
  exact toLowerRune_ne_iff d hd hd0 hfix c

theorem stringsToLower_mem (d : Char) (hd : d.toNat < 97) (hd0 : d.toNat ≠ 0)
    (hfix : toLowerRune d = d) (s : GoString) : d ∈ stringsToLower s ↔ d ∈ s := by
  unfold stringsToLower
  rw [List.mem_map]
  constructor
  · rintro ⟨c, hc, e⟩
    rw [toLowerRune_eq_low c d hd hd0 e] at hc
    exact hc
  · intro h
    exact ⟨d, h, hfix⟩

/-- Lower-casing and taking the extension can be done in either order. -/
theorem dotSuffix_lastSegment_lower (s : GoString) :
    dotSuffix (lastSegment (stringsToLower s)) = stringsToLower (dotSuffix (lastSegment s)) := by
  have e1 : lastSegment (stringsToLower s) = stringsToLower (lastSegment s) := by
    unfold lastSegment
    have hr : (stringsToLower s).reverse = stringsToLower s.reverse := by
      simp [stringsToLower, List.map_reverse]
    rw [hr, stringsToLower_takeWhile '/' (by decide) (by decide) (by decide)]
    simp [stringsToLower, List.map_reverse]
  rw [e1]
  generalize lastSegment s = seg
  unfold dotSuffix
  have hiff := stringsToLower_mem '.' (by decide) (by decide) (by decide) seg
  by_cases h : '.' ∈ seg
  · have hr : (stringsToLower seg).reverse = stringsToLower seg.reverse := by
      simp [stringsToLower, List.map_reverse]
    rw [if_pos h, if_pos (hiff.2 h), hr,
      stringsToLower_takeWhile '.' (by decide) (by decide) (by decide)]
    have hdot : toLowerRune '.' = '.' := by decide
    simp [stringsToLower, List.map_reverse, hdot]
  · rw [if_neg h, if_neg (fun hm => h (hiff.1 hm))]; rfl

/-- When the query string holds no `.` and no `/`, the extension the code
appends, cut at its first `?`, is the lower-cased extension of the path
component. -/
theorem trimmed_extension_eq (u : GoString) (hd : '.' ∉ queryPart u) (hs : '/' ∉ queryPart u) :
    (getFileExtension (stringsToLower u)).takeWhile (fun c => c != '?') = pathExtension u := by
  have hsplit : u = u.takeWhile (fun c => c != '?') ++ queryPart u :=
    (List.takeWhile_append_dropWhile _ u).symm
  have hq : queryPart u = [] ∨ ∃ r, queryPart u = '?' :: r := by
    cases hqp : queryPart u with
    | nil => left; rfl
    | cons c r =>
      right
      have h := List.head_dropWhile_not (fun c => c != '?') u
      unfold queryPart at hqp
      simp only [hqp] at h
      have h2 := h (by simp)
      simp only [List.head_cons, bne_iff_ne, ne_eq, Bool.not_eq_true, bne_eq_false_iff_eq]
        at h2
      exact ⟨r, by rw [h2]⟩
  have hpq : '?' ∉ u.takeWhile (fun c => c != '?') := by
    intro hm
    have := List.mem_takeWhile_imp hm
    simp at this
  generalize queryPart u = q at hsplit hq hd hs
  unfold pathExtension
  generalize u.takeWhile (fun c => c != '?') = p at hsplit hpq ⊢
  have hlow : stringsToLower u = stringsToLower p ++ stringsToLower q := by
    rw [hsplit]; simp [stringsToLower]
  have hd2 : '.' ∉ stringsToLower q :=
    fun h => hd ((stringsToLower_mem '.' (by decide) (by decide) (by decide) q).1 h)
  have hs2 : '/' ∉ stringsToLower q :=
    fun h => hs ((stringsToLower_mem '/' (by decide) (by decide) (by decide) q).1 h)
  have hp2 : '?' ∉ stringsToLower p :=
    fun h => hpq ((stringsToLower_mem '?' (by decide) (by decide) (by decide) p).1 h)
  have hext : '?' ∉ filepathExt (stringsToLower p) :=
    fun h => hp2 ((filepathExt_suffix _).subset h)
  show (filepathExt (stringsToLower u)).takeWhile (fun c => c != '?') = _
  rw [hlow, filepathExt_append _ _ hd2 hs2, ← dotSuffix_lastSegment_lower,
    ← filepathExt_eq_dotSuffix]
  by_cases he : filepathExt (stringsToLower p) = []
  · simp [he]
  · rw [if_neg he]
    have hall : ∀ c ∈ filepathExt (stringsToLower p), (fun c => c != '?') c = true := by
      intro c hc
      have : c ≠ '?' := fun e => hext (e ▸ hc)
      simpa using this
    rw [List.takeWhile_append_of_pos hall]
    rcases hq with hq | ⟨r, hq⟩
    · subst hq; simp [stringsToLower]
    · subst hq
      have hqm : toLowerRune '?' = '?' := by decide
      simp [stringsToLower, List.takeWhile_cons, hqm]

/-- C5 (the code misses it): for `https://example.com/a.pdf?v=1.2` the
lower-cased extension of the path component is `.pdf`, but the name returned is
`a_pdf_v_1_2.2`, ending with `.2` from the query string; for
`https://example.com/get?file=a.pdf` the last path segment has no dot and yet
`.pdf` is appended; for `https://EXAMPLE.com/Path/File Name.PDF?x=1` the name does end
with `.pdf`.  The extension is taken before the query string is trimmed, and
the trim at the first `?` only repairs it when the query string holds no `.`
and no `/`: for every such URL the name is a stem over `[a-z0-9_]` followed by
the lower-cased extension of the path component. -/
theorem urlToFilename_query_extension :
    pathExtension "https://example.com/a.pdf?v=1.2".toList = ".pdf".toList ∧
    urlToFilename "https://example.com/a.pdf?v=1.2".toList = "a_pdf_v_1_2.2".toList ∧
    ¬ (pathExtension "https://example.com/a.pdf?v=1.2".toList <:+
      urlToFilename "https://example.com/a.pdf?v=1.2".toList) ∧
    pathExtension "https://example.com/get?file=a.pdf".toList = [] ∧
    urlToFilename "https://example.com/get?file=a.pdf".toList = "get_file_a_pdf.pdf".toList ∧
    pathExtension "https://EXAMPLE.com/Path/File Name.PDF?x=1".toList = ".pdf".toList ∧
    pathExtension "https://EXAMPLE.com/Path/File Name.PDF?x=1".toList <:+
      urlToFilename "https://EXAMPLE.com/Path/File Name.PDF?x=1".toList ∧
    (∀ u : GoString, '.' ∉ queryPart u → '/' ∉ queryPart u →
      ∃ stem : GoString, (∀ c ∈ stem, isNameChar c = true) ∧
        urlToFilename u = stem ++ pathExtension u) := by
  refine ⟨by decide, by decide, by decide, by decide, by decide, by decide, by decide, ?_⟩
  intro u hd hs
  obtain ⟨stem, he, hmem, _, _, _⟩ := urlToFilename_decomp u
  exact ⟨stem, hmem, by rw [he, trimmed_extension_eq u hd hs]⟩

/-! ## `downloadFile` -/

theorem osStat_fsPut (fs : List (GoString × Node)) (reqs : List GoString) (name : GoString)
    (node : Node) : osStat ⟨fsPut fs name node, reqs⟩ name = some node := by
  simp [osStat, fsPut, List.lookup]

theorem osCreate_some (env : Env) (w w2 : World) (p : GoString)
    (h : osCreate env w p = some w2) : w2 = ⟨fsPut w.fs p (Node.file []), w.requests⟩ := by
  unfold osCreate at h
  split at h
  · exact absurd h (by simp)
  · injection h with h; exact h.symm

/-- The outcomes of `downloadFile`, one for each `return` of the source. -/
theorem downloadFile_cases (env : Env) (w : World) (url dir : GoString) :
    (fileExists w (targetPath url dir) = true ∧ downloadFile env w url dir = (false, w)) ∨
    (fileExists w (targetPath url dir) = false ∧
      (downloadFile env w url dir).1 = false ∧
      (downloadFile env w url dir).2 = ⟨w.fs, w.requests ++ [url]⟩) ∨
    (fileExists w (targetPath url dir) = false ∧
      ∃ resp, env.get url = some resp ∧ resp.statusCode = 200 ∧ resp.body ≠ [] ∧
        (downloadFile env w url dir).1 =
          decide (min (env.written (targetPath url dir) resp.body) resp.body.length =
            resp.body.length) ∧
        (downloadFile env w url dir).2 =
          ⟨fsPut (fsPut w.fs (targetPath url dir) (Node.file [])) (targetPath url dir)
            (Node.file (resp.body.take
              (min (env.written (targetPath url dir) resp.body) resp.body.length))),
           w.requests ++ [url]⟩) := by
  have hp : filepathJoin [dir, stringsToLower (urlToFilename url)] = targetPath url dir := rfl
  unfold downloadFile
  simp only []
  rw [hp]
  generalize targetPath url dir = p
  by_cases hex : fileExists w p = true
  · left; exact ⟨hex, by rw [if_pos hex]⟩
  · right
    rw [if_neg hex]
    simp only [Bool.not_eq_true] at hex
    cases hget : env.get url with
    | none => left; exact ⟨hex, rfl, rfl⟩
    | some resp =>
      simp only []
      by_cases hst : resp.statusCode = 200
      · rw [if_neg (by simpa using hst)]
        by_cases hrf : resp.readFails = true
        · left; rw [if_pos hrf]; exact ⟨hex, rfl, rfl⟩
        · rw [if_neg hrf]
          by_cases hb : resp.body.length = 0
          · left; rw [if_pos hb]; exact ⟨hex, rfl, rfl⟩
          · rw [if_neg hb]
            cases hc : osCreate env ⟨w.fs, w.requests ++ [url]⟩ p with
            | none => left; exact ⟨hex, rfl, rfl⟩
            | some w2 =>
              right
              have hw2 := osCreate_some env _ w2 p hc
              subst hw2
              have hbne : resp.body ≠ [] := fun e => hb (by simp [e])
              refine ⟨hex, resp, rfl, hst, hbne, ?_⟩
              simp only [writeTo]
              by_cases hn : min (env.written p resp.body) resp.body.length = resp.body.length
              · simp [hn]
              · simp [hn]
      · left; rw [if_pos hst]; exact ⟨hex, rfl, rfl⟩

theorem fileExists_fsPut_file (fs : List (GoString × Node)) (reqs : List GoString)
    (name : GoString) (content : List Nat) :
    fileExists ⟨fsPut fs name (Node.file content), reqs⟩ name = true := by
  unfold fileExists
  rw [osStat_fsPut]
  rfl

/-- C6: when a file is at the target path, `downloadFile` returns `false` and
the world, file system and request log, is as before: no request is sent and no
file is touched.  After a call that returned `true` the target holds a file, so
a second call for the same URL and directory is such a skip, whatever the
network and the system would answer. -/
theorem downloadFile_skips_existing (env env2 : Env) (w : World) (url dir : GoString) :
    (fileExists w (targetPath url dir) = true → downloadFile env w url dir = (false, w)) ∧
    ((downloadFile env w url dir).1 = true →
      downloadFile env2 (downloadFile env w url dir).2 url dir =
        (false, (downloadFile env w url dir).2)) := by
  have skip : ∀ (e : Env) (v : World), fileExists v (targetPath url dir) = true →
      downloadFile e v url dir = (false, v) := by
    intro e v hv
    rcases downloadFile_cases e v url dir with ⟨_, h⟩ | ⟨h, _⟩ | ⟨h, _⟩
    · exact h
    · rw [hv] at h; exact absurd h (by decide)
    · rw [hv] at h; exact absurd h (by decide)
  refine ⟨skip env w, ?_⟩
  intro hok
  apply skip
  rcases downloadFile_cases env w url dir with ⟨_, h⟩ | ⟨_, h, _⟩ | ⟨_, resp, _, _, _, _, h⟩
  · rw [h] at hok; simp at hok
  · rw [h] at hok; simp at hok
  · rw [h]; exact fileExists_fsPut_file _ _ _ _

theorem downloadFile_skips_existing_witness :
    (fileExists ⟨[("Assets/guide_pdf.pdf".toList, Node.file [7])], []⟩
        (targetPath "https://example.com/docs/Guide.PDF".toList "Assets/".toList) = true ∧
      downloadFile (servingEnv 200 [1, 2, 3] false 3)
          ⟨[("Assets/guide_pdf.pdf".toList, Node.file [7])], []⟩
          "https://example.com/docs/Guide.PDF".toList "Assets/".toList =
        (false, ⟨[("Assets/guide_pdf.pdf".toList, Node.file [7])], []⟩)) ∧
    ((downloadFile (servingEnv 200 [1, 2, 3] false 3) emptyWorld
        "https://example.com/docs/Guide.PDF".toList "Assets/".toList).1 = true ∧
      downloadFile (servingEnv 200 [4, 5] false 2)
          (downloadFile (servingEnv 200 [1, 2, 3] false 3) emptyWorld
            "https://example.com/docs/Guide.PDF".toList "Assets/".toList).2
          "https://example.com/docs/Guide.PDF".toList "Assets/".toList =
        (false, (downloadFile (servingEnv 200 [1, 2, 3] false 3) emptyWorld
          "https://example.com/docs/Guide.PDF".toList "Assets/".toList).2)) :=
  ⟨⟨by decide,
    (downloadFile_skips_existing (servingEnv 200 [1, 2, 3] false 3)
      (servingEnv 200 [1, 2, 3] false 3) ⟨[("Assets/guide_pdf.pdf".toList, Node.file [7])], []⟩
      "https://example.com/docs/Guide.PDF".toList "Assets/".toList).1 (by decide)⟩,
   ⟨by decide,
    (downloadFile_skips_existing (servingEnv 200 [1, 2, 3] false 3)
      (servingEnv 200 [4, 5] false 2) emptyWorld
      "https://example.com/docs/Guide.PDF".toList "Assets/".toList).2 (by decide)⟩⟩

/-- C7: when no file is at the target path and the response has a status other
than 200 (so every status that is not a success) or a body of length zero,
`downloadFile` returns `false`, the file system is as before and no file is at
the target path. -/
theorem downloadFile_bad_response (env : Env) (w : World) (url dir : GoString)
    (resp : Response) (hnew : fileExists w (targetPath url dir) = false)
    (hget : env.get url = some resp) (hbad : resp.statusCode ≠ 200 ∨ resp.body = []) :
    (downloadFile env w url dir).1 = false ∧
    (downloadFile env w url dir).2.fs = w.fs ∧
    fileExists (downloadFile env w url dir).2 (targetPath url dir) = false := by
  rcases downloadFile_cases env w url dir with ⟨h, _⟩ | ⟨_, h1, h2⟩ | ⟨_, r, hr, hs, hb, _, _⟩
  · rw [hnew] at h; exact absurd h (by decide)
  · refine ⟨h1, by rw [h2], ?_⟩
    rw [h2]
    exact hnew
  · rw [hget] at hr
    injection hr with hr
    subst hr
    rcases hbad with h | h
    · exact absurd hs h
    · exact absurd h hb

theorem downloadFile_bad_response_witness :
    (fileExists emptyWorld
        (targetPath "https://example.com/docs/Guide.PDF".toList "Assets/".toList) = false ∧
      (servingEnv 404 [1, 2, 3] false 3).get "https://example.com/docs/Guide.PDF".toList =
        some ⟨404, [1, 2, 3], false⟩ ∧
      (servingEnv 200 [] false 0).get "https://example.com/docs/Guide.PDF".toList =
        some ⟨200, [], false⟩) ∧
    ((downloadFile (servingEnv 404 [1, 2, 3] false 3) emptyWorld
        "https://example.com/docs/Guide.PDF".toList "Assets/".toList).1 = false ∧
      (downloadFile (servingEnv 404 [1, 2, 3] false 3) emptyWorld
        "https://example.com/docs/Guide.PDF".toList "Assets/".toList).2.fs = emptyWorld.fs ∧
      fileExists (downloadFile (servingEnv 404 [1, 2, 3] false 3) emptyWorld
          "https://example.com/docs/Guide.PDF".toList "Assets/".toList).2
        (targetPath "https://example.com/docs/Guide.PDF".toList "Assets/".toList) = false) ∧
    ((downloadFile (servingEnv 200 [] false 0) emptyWorld
        "https://example.com/docs/Guide.PDF".toList "Assets/".toList).1 = false ∧
      (downloadFile (servingEnv 200 [] false 0) emptyWorld
        "https://example.com/docs/Guide.PDF".toList "Assets/".toList).2.fs = emptyWorld.fs ∧
      fileExists (downloadFile (servingEnv 200 [] false 0) emptyWorld
          "https://example.com/docs/Guide.PDF".toList "Assets/".toList).2
        (targetPath "https://example.com/docs/Guide.PDF".toList "Assets/".toList) = false) :=
  ⟨⟨by decide, rfl, rfl⟩,
   downloadFile_bad_response (servingEnv 404 [1, 2, 3] false 3) emptyWorld
     "https://example.com/docs/Guide.PDF".toList "Assets/".toList ⟨404, [1, 2, 3], false⟩
     (by decide) rfl (Or.inl (by decide)),
   downloadFile_bad_response (servingEnv 200 [] false 0) emptyWorld
     "https://example.com/docs/Guide.PDF".toList "Assets/".toList ⟨200, [], false⟩
     (by decide) rfl (Or.inr rfl)⟩

/-- C8, as the code has it, outcome by outcome.  With a file at the target the
call returns `false` and changes nothing.  Without one, a transport error, a
status other than 200, a read error, an empty body and a refused `os.Create`
(a directory at the target, or a refusal of the system) each give `false` with
the file system as it was.  When the file is created, the call returns `true`
with the whole body in the file at the target if the write stores every byte,
and `false` with the bytes stored so far (possibly none) in the new file at the
target if the write stops short. -/
theorem downloadFile_file_effects (env : Env) (w : World) (url dir : GoString) :
    (fileExists w (targetPath url dir) = true → downloadFile env w url dir = (false, w)) ∧
    (fileExists w (targetPath url dir) = false → env.get url = none →
      (downloadFile env w url dir).1 = false ∧ (downloadFile env w url dir).2.fs = w.fs) ∧
    (∀ resp, fileExists w (targetPath url dir) = false → env.get url = some resp →
      (resp.statusCode ≠ 200 ∨ resp.readFails = true ∨ resp.body = [] ∨
        osStat w (targetPath url dir) = some Node.dir ∨
        env.createFails (targetPath url dir) = true) →
      (downloadFile env w url dir).1 = false ∧ (downloadFile env w url dir).2.fs = w.fs) ∧
    (∀ resp, fileExists w (targetPath url dir) = false → env.get url = some resp →
      resp.statusCode = 200 → resp.readFails = false → resp.body ≠ [] →
      osStat w (targetPath url dir) ≠ some Node.dir →
      env.createFails (targetPath url dir) = false →
      (resp.body.length ≤ env.written (targetPath url dir) resp.body →
        (downloadFile env w url dir).1 = true ∧
        osStat (downloadFile env w url dir).2 (targetPath url dir) =
          some (Node.file resp.body)) ∧
      (env.written (targetPath url dir) resp.body < resp.body.length →
        (downloadFile env w url dir).1 = false ∧
        osStat (downloadFile env w url dir).2 (targetPath url dir) =
          some (Node.file (resp.body.take (env.written (targetPath url dir) resp.body))))) := by
  have hp : filepathJoin [dir, stringsToLower (urlToFilename url)] = targetPath url dir := rfl
  unfold downloadFile
  simp only []
  rw [hp]
  generalize targetPath url dir = p
  refine ⟨?_, ?_, ?_, ?_⟩
  · intro hex
    rw [if_pos hex]
  · intro hex hget
    rw [if_neg (by simp [hex]), hget]
    exact ⟨rfl, rfl⟩
  · intro resp hex hget hbad
    rw [if_neg (by simp [hex]), hget]
    simp only []
    by_cases hst : resp.statusCode = 200
    · rw [if_neg (by simpa using hst)]
      by_cases hrf : resp.readFails = true
      · rw [if_pos hrf]; exact ⟨rfl, rfl⟩
      · rw [if_neg hrf]
        by_cases hb : resp.body.length = 0
        · rw [if_pos hb]; exact ⟨rfl, rfl⟩
        · rw [if_neg hb]
          have hbne : resp.body ≠ [] := fun e => hb (by simp [e])
          have hc : osStat w p = some Node.dir ∨ env.createFails p = true := by
            rcases hbad with h | h | h | h | h
            · exact absurd hst h
            · exact absurd h hrf
            · exact absurd h hbne
            · exact Or.inl h
            · exact Or.inr h
          have hcr : osCreate env ⟨w.fs, w.requests ++ [url]⟩ p = none := if_pos hc
          rw [hcr]
          exact ⟨rfl, rfl⟩
    · rw [if_pos hst]; exact ⟨rfl, rfl⟩
  · intro resp hex hget hst hrf hb hnd hcf
    rw [if_neg (by simp [hex]), hget]
    simp only []
    have hlen : resp.body.length ≠ 0 := fun e => hb (List.length_eq_zero.1 e)
    have hno : ¬ (osStat w p = some Node.dir ∨ env.createFails p = true) := by
      rintro (h | h)
      · exact hnd h
      · rw [hcf] at h; exact absurd h (by decide)
    have hcr : osCreate env ⟨w.fs, w.requests ++ [url]⟩ p =
        some ⟨fsPut w.fs p (Node.file []), w.requests ++ [url]⟩ := if_neg hno
    rw [if_neg (by simpa using hst), if_neg (by simp [hrf]), if_neg hlen, hcr]
    simp only [writeTo]
    constructor
    · intro hfull
      have hmin : min (env.written p resp.body) resp.body.length = resp.body.length :=
        Nat.min_eq_right hfull
      simp only [hmin, decide_True, List.take_length]
      exact ⟨trivial, osStat_fsPut _ _ _ _⟩
    · intro hshort
      have hmin : min (env.written p resp.body) resp.body.length = env.written p resp.body :=
        Nat.min_eq_left (Nat.le_of_lt hshort)
      have hne : ¬ env.written p resp.body = resp.body.length := by omega
      simp only [hmin, hne, decide_False]
      exact ⟨trivial, osStat_fsPut _ _ _ _⟩

theorem downloadFile_file_effects_witness :
    (fileExists emptyWorld
        (targetPath "https://example.com/docs/Guide.PDF".toList "Assets/".toList) = false ∧
      (servingEnv 200 [1, 2, 3] true 3).createFails
        (targetPath "https://example.com/docs/Guide.PDF".toList "Assets/".toList) = true ∧
      (downloadFile (servingEnv 200 [1, 2, 3] true 3) emptyWorld
        "https://example.com/docs/Guide.PDF".toList "Assets/".toList).1 = false ∧
      (downloadFile (servingEnv 200 [1, 2, 3] true 3) emptyWorld
        "https://example.com/docs/Guide.PDF".toList "Assets/".toList).2.fs = emptyWorld.fs) ∧
    ([1, 2, 3].length ≤ (servingEnv 200 [1, 2, 3] false 3).written
        (targetPath "https://example.com/docs/Guide.PDF".toList "Assets/".toList) [1, 2, 3] ∧
      (downloadFile (servingEnv 200 [1, 2, 3] false 3) emptyWorld
        "https://example.com/docs/Guide.PDF".toList "Assets/".toList).1 = true ∧
      osStat (downloadFile (servingEnv 200 [1, 2, 3] false 3) emptyWorld
          "https://example.com/docs/Guide.PDF".toList "Assets/".toList).2
        (targetPath "https://example.com/docs/Guide.PDF".toList "Assets/".toList) =
        some (Node.file [1, 2, 3])) ∧
    ((servingEnv 200 [1, 2, 3] false 2).written
        (targetPath "https://example.com/docs/Guide.PDF".toList "Assets/".toList) [1, 2, 3] <
        [1, 2, 3].length ∧
      (downloadFile (servingEnv 200 [1, 2, 3] false 2) emptyWorld
        "https://example.com/docs/Guide.PDF".toList "Assets/".toList).1 = false ∧
      osStat (downloadFile (servingEnv 200 [1, 2, 3] false 2) emptyWorld
          "https://example.com/docs/Guide.PDF".toList "Assets/".toList).2
        (targetPath "https://example.com/docs/Guide.PDF".toList "Assets/".toList) =
        some (Node.file [1, 2])) :=
  ⟨⟨by decide, rfl,
    (downloadFile_file_effects (servingEnv 200 [1, 2, 3] true 3) emptyWorld
      "https://example.com/docs/Guide.PDF".toList "Assets/".toList).2.2.1
      ⟨200, [1, 2, 3], false⟩ (by decide) rfl (Or.inr (Or.inr (Or.inr (Or.inr rfl))))⟩,
   ⟨by decide,
    ((downloadFile_file_effects (servingEnv 200 [1, 2, 3] false 3) emptyWorld
      "https://example.com/docs/Guide.PDF".toList "Assets/".toList).2.2.2
      ⟨200, [1, 2, 3], false⟩ (by decide) rfl rfl rfl (by decide) (by decide) rfl).1
      (by decide)⟩,
   ⟨by decide,
    ((downloadFile_file_effects (servingEnv 200 [1, 2, 3] false 2) emptyWorld
      "https://example.com/docs/Guide.PDF".toList "Assets/".toList).2.2.2
      ⟨200, [1, 2, 3], false⟩ (by decide) rfl rfl rfl (by decide) (by decide) rfl).2
      (by decide)⟩⟩

/-- C8 fails as stated: when the write stops short the call returns `false` and
yet a new file, empty or partly written, is at the target path, where there was
none before. -/
theorem downloadFile_partial_file_counterexample :
    osStat emptyWorld
      (targetPath "https://example.com/docs/Guide.PDF".toList "Assets/".toList) = none ∧
    (downloadFile (servingEnv 200 [1, 2, 3] false 0) emptyWorld
      "https://example.com/docs/Guide.PDF".toList "Assets/".toList).1 = false ∧
    osStat (downloadFile (servingEnv 200 [1, 2, 3] false 0) emptyWorld
        "https://example.com/docs/Guide.PDF".toList "Assets/".toList).2
      (targetPath "https://example.com/docs/Guide.PDF".toList "Assets/".toList) =
      some (Node.file []) ∧
    (downloadFile (servingEnv 200 [1, 2, 3] false 2) emptyWorld
      "https://example.com/docs/Guide.PDF".toList "Assets/".toList).1 = false ∧
    osStat (downloadFile (servingEnv 200 [1, 2, 3] false 2) emptyWorld
        "https://example.com/docs/Guide.PDF".toList "Assets/".toList).2
      (targetPath "https://example.com/docs/Guide.PDF".toList "Assets/".toList) =
      some (Node.file [1, 2]) := by
  decide

end KandelDocs
